import Mathlib

/-!
# Ride sharing system (`RideSharingSystem.cpp`): embedding and verified properties

The C++ program computes fares in `double` and counts rides in `int`.  Both are
modelled bit-exactly:

* `Double` is IEEE-754 binary64 with round-to-nearest, ties-to-even: every
  `*` and `+` of the source is one correctly rounded operation (`Double.mul`,
  `Double.add`), as a C++ compiler produces without fused multiply-add
  contraction.  Signed zeros and infinities are tracked; all NaNs are one value.
* `int` is a two's-complement 32-bit integer (`toInt32`), the result of
  `static_cast<int>` on a container size.
* `std::shared_ptr<Ride>` is a `RidePtr`: the immutable ride data tagged with
  its dynamic class, so virtual dispatch is a `match` on the tag.
* Text written to `std::cout` is returned as the list of lines written.
-/

set_option maxRecDepth 100000
set_option exponentiation.threshold 100000

namespace RideSharing

/-! ## IEEE-754 binary64 -/

/-- A binary64 datum.  `fin neg m e` denotes `(-1)^neg * m * 2^e`. -/
inductive Double where
  | nan : Double
  | inf (neg : Bool) : Double
  | fin (neg : Bool) (m : Nat) (e : Int) : Double
  deriving DecidableEq, Repr

namespace Double

/-- The canonical encodings: 53-bit significands with exponent in
`[-1074, 971]`; below the normal range the exponent is pinned to `-1074`. -/
def Valid : Double → Prop
  | nan => True
  | inf _ => True
  | fin _ m e => m < 2 ^ 53 ∧ -1074 ≤ e ∧ e ≤ 971 ∧ (e = -1074 ∨ 2 ^ 52 ≤ m)

instance (d : Double) : Decidable d.Valid := by
  cases d <;> unfold Valid <;> infer_instance

/-- Least `k`, searching upwards from `k`, with `n < 2 ^ 2 ^ k`. -/
def bitLevels (n : Nat) : Nat → Nat → Nat
  | 0, k => k
  | fuel + 1, k => if n < 2 ^ 2 ^ k then k else bitLevels n fuel (k + 1)

/-- Number of binary digits of `n < 2 ^ 2 ^ lv`, halving the window. -/
def bitLenAux : Nat → Nat → Nat
  | 0, n => if n = 0 then 0 else 1
  | lv + 1, n =>
    if n < 2 ^ 2 ^ lv then bitLenAux lv n else 2 ^ lv + bitLenAux lv (n / 2 ^ 2 ^ lv)

/-- Number of binary digits of `n` (`0` for `n = 0`). -/
def bitLen (n : Nat) : Nat := bitLenAux (bitLevels n n 0) n

/-- Nearest integer to `a / b`, ties to the even one. -/
def rneDiv (a b : Nat) : Nat :=
  if b < 2 * (a % b) ∨ (2 * (a % b) = b ∧ a / b % 2 = 1) then a / b + 1 else a / b

/-- Exponent of the unit in the last place for a magnitude `M * 2^E`. -/
def ulpExp (M : Nat) (E : Int) : Int := max (E + (bitLen M : Int) - 53) (-1074)

/-- Correct rounding of the exact magnitude `M * 2^E` with sign `neg` to
binary64 (round to nearest, ties to even, overflow to infinity, gradual
underflow). -/
def roundNE (neg : Bool) (M : Nat) (E : Int) : Double :=
  if M = 0 then fin neg 0 (-1074)
  else
    let t := ulpExp M E
    let q := rneDiv (M * 2 ^ (E - t).toNat) (2 ^ (t - E).toNat)
    if q = 2 ^ 53 then (if 971 < t + 1 then inf neg else fin neg (2 ^ 52) (t + 1))
    else if 971 < t then inf neg else fin neg q t

/-- Signed integer with magnitude `m`. -/
def sgn (neg : Bool) (m : Nat) : Int := if neg then -(m : Int) else (m : Int)

/-- The `*` of the source on `double`. -/
def mul : Double → Double → Double
  | nan, _ => nan
  | _, nan => nan
  | inf s, inf t => inf (xor s t)
  | inf s, fin t n _ => if n = 0 then nan else inf (xor s t)
  | fin s m _, inf t => if m = 0 then nan else inf (xor s t)
  | fin s m e, fin t n f => roundNE (xor s t) (m * n) (e + f)

/-- The `+` of the source on `double`. -/
def add : Double → Double → Double
  | nan, _ => nan
  | _, nan => nan
  | inf s, inf t => if s = t then inf s else nan
  | inf s, fin _ _ _ => inf s
  | fin _ _ _, inf t => inf t
  | fin s m e, fin t n f =>
    let g := min e f
    let z := sgn s (m * 2 ^ (e - g).toNat) + sgn t (n * 2 ^ (f - g).toNat)
    if z = 0 then fin (s && t) 0 (-1074) else roundNE (decide (z < 0)) z.natAbs g

/-- The `<=` of C++ on `double` (false as soon as a NaN is involved). -/
def le : Double → Double → Bool
  | nan, _ => false
  | _, nan => false
  | inf s, inf t => s || !t
  | inf s, fin _ _ _ => s
  | fin _ _ _, inf t => !t
  | fin s m e, fin t n f =>
    decide (sgn s (m * 2 ^ (e - min e f).toNat) ≤ sgn t (n * 2 ^ (f - min e f).toNat))

/-- The `<` of C++ on `double`. -/
def lt : Double → Double → Bool
  | nan, _ => false
  | _, nan => false
  | inf s, inf t => s && !t
  | inf s, fin _ _ _ => s
  | fin _ _ _, inf t => !t
  | fin s m e, fin t n f =>
    decide (sgn s (m * 2 ^ (e - min e f).toNat) < sgn t (n * 2 ^ (f - min e f).toNat))

/-- The `==` of C++ on `double`: numeric equality, `-0.0 == 0.0`, NaN unequal
to everything. -/
def eq (a b : Double) : Bool := le a b && le b a

def isFinite : Double → Bool
  | fin _ _ _ => true
  | _ => false

/-- The double denoting exactly `n * 2^k`, when representable; the nearest
double otherwise. -/
def dyadic (n : Nat) (k : Int) : Double := roundNE false n k

/-- The double `(double) n` for a natural number `n`. -/
def ofNat (n : Nat) : Double := dyadic n 0

/-- The literal `0.0`. -/
def zero : Double := fin false 0 (-1074)

/-- The source literal `2.50`. -/
def c2_50 : Double := fin false (5 * 2 ^ 50) (-51)
/-- The source literal `2.00`. -/
def c2_00 : Double := fin false (2 ^ 52) (-51)
/-- The source literal `1.50`. -/
def c1_50 : Double := fin false (3 * 2 ^ 51) (-52)
/-- The source literal `3.50`. -/
def c3_50 : Double := fin false (7 * 2 ^ 50) (-51)
/-- The source literal `5.00`. -/
def c5_00 : Double := fin false (5 * 2 ^ 50) (-50)
/-- The source literal `1.20`: the binary64 number nearest to `6/5`,
`0x3FF3333333333333`. -/
def c1_20 : Double := fin false 5404319552844595 (-52)

/-- Exact rational value of a finite double (`0` for the others). -/
def toRat : Double → ℚ
  | fin s m e => (sgn s m : ℚ) * (2 : ℚ) ^ e
  | _ => 0

/-! ### Exact values, used to state rounding -/

/-- Magnitude `M * 2^E` as a rational. -/
def mag (M : Nat) (E : Int) : ℚ := (M : ℚ) * 2 ^ E

/-- Significand obtained when `M * 2^E` is rounded at unit `2^t`. -/
def rqAt (M : Nat) (E t : Int) : Nat :=
  rneDiv (M * 2 ^ (E - t).toNat) (2 ^ (t - E).toNat)

/-- Magnitude of the rounded result before the overflow test. -/
def rmag (M : Nat) (E : Int) : ℚ := (rqAt M E (ulpExp M E) : ℚ) * 2 ^ ulpExp M E

/-- Order key of a double: its value, and `±2^1024` for the infinities. -/
def key : Double → ℚ
  | nan => 0
  | inf s => if s then -(2 ^ (1024 : ℤ)) else 2 ^ (1024 : ℤ)
  | fin s m e => (sgn s m : ℚ) * 2 ^ e

/-- Sign factor. -/
def sig (s : Bool) : ℚ := if s then -1 else 1

/-- Signed exact value `(-1)^s * M * 2^E`. -/
def sval (s : Bool) (M : ℕ) (E : ℤ) : ℚ := sig s * mag M E

/-- The double `a` is the correctly rounded image of the exact value `v`
(with overflow to an infinity). -/
def Rounds (v : ℚ) (a : Double) : Prop :=
  a.Valid ∧ a ≠ nan ∧ ∃ s M E, sval s M E = v ∧ key a = key (roundNE s M E)

/-- Two decimal digits of `n % 100`. -/
def twoDigits (n : Nat) : String :=
  String.mk [Nat.digitChar (n / 10 % 10), Nat.digitChar (n % 10)]

/-- Text produced by `operator<<` on a stream set to `std::fixed` and
`std::setprecision(2)`: the exact value rounded to hundredths (ties to even).
Infinities print as `inf` and `-inf`; a NaN prints as `nan`, its sign bit not
being tracked. -/
def fixed2 : Double → String
  | nan => "nan"
  | inf s => (if s then "-" else "") ++ "inf"
  | fin s m e =>
    let h := rneDiv (m * 100 * 2 ^ e.toNat) (2 ^ (-e).toNat)
    (if s then "-" else "") ++ toString (h / 100) ++ "." ++ twoDigits h

end Double

open Double

/-- Value of `static_cast<int>(n)` for a container size `n`. -/
def toInt32 (n : Nat) : Int := ((n : Int) + 2 ^ 31) % 2 ^ 32 - 2 ^ 31

/-! ## Rides -/

/-- The data members of class `Ride`, fixed by the constructor. -/
structure Ride where
  rideID : Int
  pickupLocation : String
  dropoffLocation : String
  distance : Double
  deriving DecidableEq, Repr

/-- Dynamic class of a ride object. -/
inductive RideClass where
  | base
  | standard
  | premium
  deriving DecidableEq, Repr

/-- A `std::shared_ptr<Ride>`: the object together with its dynamic class. -/
structure RidePtr where
  cls : RideClass
  obj : Ride
  deriving DecidableEq, Repr

/-- `Ride::fare`. -/
def Ride.fare (r : Ride) : Double := r.distance.mul c2_50

/-- `StandardRide::fare`. -/
def StandardRide.fare (r : Ride) : Double := (r.distance.mul c2_00).add c1_50

/-- `PremiumRide::fare`. -/
def PremiumRide.fare (r : Ride) : Double :=
  let baseFare := (r.distance.mul c3_50).add c5_00
  baseFare.mul c1_20

/-- The virtual call `ride->fare()`. -/
def RidePtr.fare (p : RidePtr) : Double :=
  match p.cls with
  | .base => Ride.fare p.obj
  | .standard => StandardRide.fare p.obj
  | .premium => PremiumRide.fare p.obj

/-- `Ride::rideDetails`; its `fare()` is a virtual call on the object. -/
def Ride.rideDetails (p : RidePtr) : String :=
  "Ride ID: " ++ toString p.obj.rideID
    ++ ", From: " ++ p.obj.pickupLocation
    ++ ", To: " ++ p.obj.dropoffLocation
    ++ ", Distance: " ++ fixed2 p.obj.distance ++ " miles"
    ++ ", Fare: $" ++ fixed2 p.fare

/-- `StandardRide::rideDetails`. -/
def StandardRide.rideDetails (r : Ride) : String :=
  "[STANDARD] Ride ID: " ++ toString r.rideID
    ++ ", From: " ++ r.pickupLocation
    ++ ", To: " ++ r.dropoffLocation
    ++ ", Distance: " ++ fixed2 r.distance ++ " miles"
    ++ ", Fare: $" ++ fixed2 (StandardRide.fare r)

/-- `PremiumRide::rideDetails`. -/
def PremiumRide.rideDetails (r : Ride) : String :=
  "[PREMIUM] Ride ID: " ++ toString r.rideID
    ++ ", From: " ++ r.pickupLocation
    ++ ", To: " ++ r.dropoffLocation
    ++ ", Distance: " ++ fixed2 r.distance ++ " miles"
    ++ ", Fare: $" ++ fixed2 (PremiumRide.fare r) ++ " (includes luxury surcharge)"

/-- The virtual call `ride->rideDetails()`. -/
def RidePtr.rideDetails (p : RidePtr) : String :=
  match p.cls with
  | .base => Ride.rideDetails p
  | .standard => StandardRide.rideDetails p.obj
  | .premium => PremiumRide.rideDetails p.obj

/-- The virtual call `ride->getRideType()`. -/
def RidePtr.getRideType (p : RidePtr) : String :=
  match p.cls with
  | .base => "BASE"
  | .standard => "STANDARD"
  | .premium => "PREMIUM"

/-- `std::make_shared<Ride>(id, pickup, dropoff, dist)`. -/
def makeRide (id : Int) (pickup dropoff : String) (dist : Double) : RidePtr :=
  ⟨.base, ⟨id, pickup, dropoff, dist⟩⟩

/-- `std::make_shared<StandardRide>(id, pickup, dropoff, dist)`. -/
def makeStandardRide (id : Int) (pickup dropoff : String) (dist : Double) : RidePtr :=
  ⟨.standard, ⟨id, pickup, dropoff, dist⟩⟩

/-- `std::make_shared<PremiumRide>(id, pickup, dropoff, dist)`. -/
def makePremiumRide (id : Int) (pickup dropoff : String) (dist : Double) : RidePtr :=
  ⟨.premium, ⟨id, pickup, dropoff, dist⟩⟩

/-! ## Drivers -/

/-- The data members of class `Driver`. -/
structure Driver where
  driverID : Int
  name : String
  rating : Double
  assignedRides : List RidePtr
  deriving DecidableEq, Repr

namespace Driver

/-- `Driver::Driver`: the ride vector starts empty. -/
def create (id : Int) (driverName : String) (driverRating : Double) : Driver :=
  ⟨id, driverName, driverRating, []⟩

/-- `Driver::addRide`: the updated driver and the line written to `std::cout`. -/
def addRide (d : Driver) (ride : RidePtr) : Driver × List String :=
  ({ d with assignedRides := d.assignedRides ++ [ride] },
   ["Ride " ++ toString ride.obj.rideID ++ " assigned to driver " ++ d.name])

/-- `Driver::getNumberOfRides`. -/
def getNumberOfRides (d : Driver) : Int := toInt32 d.assignedRides.length

/-- `Driver::getTotalEarnings`: the accumulation loop. -/
def getTotalEarnings (d : Driver) : Double :=
  d.assignedRides.foldl (fun total ride => total.add ride.fare) zero

/-- `Driver::displayAssignedRides`: the lines written to `std::cout`. -/
def displayAssignedRides (d : Driver) : List String :=
  ["Rides for driver " ++ d.name ++ ":"] ++
    (if d.assignedRides.isEmpty then ["  No rides assigned"]
     else d.assignedRides.foldl (fun out ride => out ++ ["  - " ++ ride.rideDetails]) [])

end Driver

/-! ## Riders -/

/-- The data members of class `Rider`. -/
structure Rider where
  riderID : Int
  name : String
  requestedRides : List RidePtr
  deriving DecidableEq, Repr

namespace Rider

/-- `Rider::Rider`: the ride vector starts empty. -/
def create (id : Int) (riderName : String) : Rider := ⟨id, riderName, []⟩

/-- `Rider::requestRide`: the updated rider and the line written to `std::cout`. -/
def requestRide (r : Rider) (ride : RidePtr) : Rider × List String :=
  ({ r with requestedRides := r.requestedRides ++ [ride] },
   ["Ride " ++ toString ride.obj.rideID ++ " requested by " ++ r.name])

/-- `Rider::getNumberOfRequestedRides`. -/
def getNumberOfRequestedRides (r : Rider) : Int := toInt32 r.requestedRides.length

/-- `Rider::getTotalSpending`: the accumulation loop. -/
def getTotalSpending (r : Rider) : Double :=
  r.requestedRides.foldl (fun total ride => total.add ride.fare) zero

/-- `Rider::viewRides`: the lines written to `std::cout`. -/
def viewRides (r : Rider) : List String :=
  ["Ride history for " ++ r.name ++ ":"] ++
    (if r.requestedRides.isEmpty then ["  No rides requested"]
     else r.requestedRides.foldl (fun out ride => out ++ ["  - " ++ ride.rideDetails]) [])

end Rider

/-! ## Scenario of `RideSharingDemo::demonstrateSystemFunctionality` -/

/-- The driver after `addRide` of each ride of `rides`, in order. -/
def Driver.addRides (d : Driver) (rides : List RidePtr) : Driver :=
  rides.foldl (fun acc ride => (acc.addRide ride).1) d

/-- The rider after `requestRide` of each ride of `rides`, in order. -/
def Rider.requestRides (r : Rider) (rides : List RidePtr) : Rider :=
  rides.foldl (fun acc ride => (acc.requestRide ride).1) r

def ride1 : RidePtr := makeRide 101 "Downtown" "Airport" (ofNat 15)
def ride2 : RidePtr := makeStandardRide 102 "Mall" "University" (ofNat 8)
def ride4 : RidePtr := makePremiumRide 104 "Luxury Hotel" "Business District" (ofNat 10)

/-- Driver `alice` after `alice.addRide(ride1); alice.addRide(ride2);`. -/
def alice : Driver :=
  (((Driver.create 501 "Alice Johnson" (dyadic 5404319552844595 (-50))).addRide ride1).1.addRide
    ride2).1

/-! ## Inputs used in counterexamples -/

/-- The distance 3 + 2^-51, the double next above 3. -/
def aboveThree : Double := fin false (3 * 2 ^ 51 + 1) (-51)

/-- The distance 3 + 2^-50, the second double above 3. -/
def aboveThree2 : Double := fin false (3 * 2 ^ 51 + 2) (-51)

/-- The double nearest to 0.1. -/
def tenth : Double := fin false 7205759403792794 (-56)
/-- The double nearest to 0.2. -/
def fifth : Double := fin false 7205759403792794 (-55)
/-- The double nearest to 0.3. -/
def threeTenths : Double := fin false 5404319552844595 (-54)

def shortA : RidePtr := makeStandardRide 201 "Gate" "Kiosk" tenth
def shortB : RidePtr := makeStandardRide 202 "Gate" "Lobby" fifth
def shortC : RidePtr := makeStandardRide 203 "Gate" "Plaza" threeTenths

/-! ## Description layout named by the specification -/

/-- Variant tag put in front of a description. -/
def tagOf : RideClass → String
  | .base => ""
  | .standard => "[STANDARD] "
  | .premium => "[PREMIUM] "

/-- Variant note put behind a description. -/
def noteOf : RideClass → String
  | .base => ""
  | .standard => ""
  | .premium => " (includes luxury surcharge)"

/-- Common body of a description, showing the fare of the ride's own variant. -/
def detailsBody (p : RidePtr) : String :=
  "Ride ID: " ++ toString p.obj.rideID
    ++ ", From: " ++ p.obj.pickupLocation
    ++ ", To: " ++ p.obj.dropoffLocation
    ++ ", Distance: " ++ fixed2 p.obj.distance ++ " miles"
    ++ ", Fare: $" ++ fixed2 p.fare

/-! ## Properties of the binary64 model -/

namespace Double

/-! ### Bit length -/

theorem bitLevels_spec (n : Nat) : ∀ fuel k, n ≤ fuel + k → n < 2 ^ 2 ^ bitLevels n fuel k
  | 0, k, h => by
    simp only [bitLevels]
    have h1 : n < 2 ^ n := Nat.lt_two_pow n
    have h2 : n ≤ 2 ^ k := le_trans (by omega) (Nat.lt_two_pow k).le
    exact lt_of_lt_of_le h1 (Nat.pow_le_pow_right (by norm_num) h2)
  | fuel + 1, k, h => by
    simp only [bitLevels]
    split
    · assumption
    · exact bitLevels_spec n fuel (k + 1) (by omega)

theorem size_eq_add_size_div (n a : Nat) (h : 2 ^ a ≤ n) :
    Nat.size n = a + Nat.size (n / 2 ^ a) := by
  have hpos : 0 < 2 ^ a := Nat.pos_pow_of_pos a (by norm_num)
  have hq : 0 < n / 2 ^ a := Nat.div_pos h hpos
  have hs : 0 < Nat.size (n / 2 ^ a) := Nat.size_pos.2 hq
  apply le_antisymm
  · rw [Nat.size_le, pow_add]
    have h1 := Nat.lt_size_self (n / 2 ^ a)
    have h2 : n < (n / 2 ^ a + 1) * 2 ^ a := by
      have := Nat.div_add_mod n (2 ^ a)
      have := Nat.mod_lt n hpos
      nlinarith
    have h3 : (n / 2 ^ a + 1) * 2 ^ a ≤ 2 ^ Nat.size (n / 2 ^ a) * 2 ^ a :=
      Nat.mul_le_mul_right _ h1
    calc n < (n / 2 ^ a + 1) * 2 ^ a := h2
      _ ≤ 2 ^ Nat.size (n / 2 ^ a) * 2 ^ a := h3
      _ = 2 ^ a * 2 ^ Nat.size (n / 2 ^ a) := by ring
  · have h1 : 2 ^ (Nat.size (n / 2 ^ a) - 1) ≤ n / 2 ^ a :=
      Nat.lt_size.1 (by omega)
    have h2 : 2 ^ (a + Nat.size (n / 2 ^ a) - 1) ≤ n := by
      have e : a + Nat.size (n / 2 ^ a) - 1 = (Nat.size (n / 2 ^ a) - 1) + a := by omega
      rw [e, pow_add]
      calc 2 ^ (Nat.size (n / 2 ^ a) - 1) * 2 ^ a ≤ n / 2 ^ a * 2 ^ a :=
            Nat.mul_le_mul_right _ h1
        _ ≤ n := Nat.div_mul_le_self n (2 ^ a)
    have := Nat.lt_size.2 h2
    omega

theorem bitLenAux_eq_size : ∀ lv n, n < 2 ^ 2 ^ lv → bitLenAux lv n = Nat.size n
  | 0, n, h => by
    simp only [bitLenAux]
    have hn : n < 2 := by simpa using h
    interval_cases n <;> simp [Nat.size]
  | lv + 1, n, h => by
    simp only [bitLenAux]
    split
    · exact bitLenAux_eq_size lv n (by assumption)
    · rename_i hge
      have hge2 : 2 ^ 2 ^ lv ≤ n := Nat.le_of_not_lt hge
      have hpos : 0 < 2 ^ 2 ^ lv := Nat.pos_pow_of_pos _ (by norm_num)
      have hq : n / 2 ^ 2 ^ lv < 2 ^ 2 ^ lv := by
        rw [Nat.div_lt_iff_lt_mul hpos, ← pow_add]
        have : 2 ^ lv + 2 ^ lv = 2 ^ (lv + 1) := by ring
        rwa [this]
      rw [bitLenAux_eq_size lv _ hq, size_eq_add_size_div n (2 ^ lv) hge2]

theorem bitLen_eq_size (n : Nat) : bitLen n = Nat.size n :=
  bitLenAux_eq_size _ n (bitLevels_spec n n 0 (by omega))

/-! ### Rounding a quotient to the nearest integer -/

theorem rneDiv_zero (b : Nat) : rneDiv 0 b = 0 := by
  simp [rneDiv]

theorem rneDiv_bounds (a b : Nat) (hb : 0 < b) :
    2 * b * rneDiv a b ≤ 2 * a + b ∧ 2 * a ≤ 2 * b * rneDiv a b + b := by
  have h1 : a = b * (a / b) + a % b := (Nat.div_add_mod a b).symm
  have h2 := Nat.mod_lt a hb
  unfold rneDiv
  generalize a / b = q at *
  generalize a % b = r at *
  subst h1
  split
  · rename_i h
    constructor
    · rcases h with h | ⟨h, _⟩ <;> nlinarith
    · nlinarith
  · rename_i h
    push_neg at h
    constructor
    · nlinarith
    · nlinarith [h.1]

theorem rneDiv_mul_left (k b : Nat) (hb : 0 < b) : rneDiv (k * b) b = k := by
  unfold rneDiv
  rw [Nat.mul_mod_left, Nat.mul_div_cancel _ hb]
  simp
  omega

theorem rneDiv_mono (a a' b : Nat) (hb : 0 < b) (h : a ≤ a') : rneDiv a b ≤ rneDiv a' b := by
  have hq : a / b ≤ a' / b := Nat.div_le_div_right h
  have h1 := Nat.div_add_mod a b
  have h2 := Nat.mod_lt a hb
  have h1' := Nat.div_add_mod a' b
  have h2' := Nat.mod_lt a' hb
  rcases Nat.lt_or_ge (a / b) (a' / b) with hlt | hge
  · have : rneDiv a b ≤ a / b + 1 := by unfold rneDiv; split <;> omega
    have : a' / b ≤ rneDiv a' b := by unfold rneDiv; split <;> omega
    omega
  · have heq : a / b = a' / b := le_antisymm hq hge
    have hr : a % b ≤ a' % b := by
      have e1 : b * (a / b) = b * (a' / b) := by rw [heq]
      omega
    unfold rneDiv
    rw [heq]
    split
    · rename_i hc
      split
      · exact le_refl _
      · rename_i hc'
        exfalso
        apply hc'
        rcases hc with hc | ⟨hc, hodd⟩
        · left; omega
        · rcases Nat.lt_or_ge (a % b) (a' % b) with h3 | h3
          · left; omega
          · right; exact ⟨by omega, hodd⟩
    · split <;> omega

theorem rneDiv_scale (a b c : Nat) (hc : 0 < c) :
    rneDiv (a * c) (b * c) = rneDiv a b := by
  have hd : a * c / (b * c) = a / b := Nat.mul_div_mul_right a b hc
  have hm : a * c % (b * c) = a % b * c := Nat.mul_mod_mul_right c a b
  unfold rneDiv
  rw [hd, hm]
  have e1 : (b * c < 2 * (a % b * c)) ↔ (b < 2 * (a % b)) := by
    constructor
    · intro h
      by_contra hn
      push_neg at hn
      have := Nat.mul_le_mul_right c hn
      nlinarith
    · intro h
      have := Nat.mul_lt_mul_of_pos_right h hc
      nlinarith
  have e2 : (2 * (a % b * c) = b * c) ↔ (2 * (a % b) = b) := by
    constructor
    · intro h
      have : 2 * (a % b) * c = b * c := by rw [← h]; ring
      exact Nat.eq_of_mul_eq_mul_right hc this
    · intro h
      have : 2 * (a % b * c) = 2 * (a % b) * c := by ring
      rw [this, h]
  simp only [e1, e2]

/-- Rounding depends on the quotient only. -/
theorem rneDiv_congr (a b a' b' : Nat) (hb : 0 < b) (hb' : 0 < b') (h : a * b' = a' * b) :
    rneDiv a b = rneDiv a' b' := by
  rw [← rneDiv_scale a b b' hb', ← rneDiv_scale a' b' b hb, h, Nat.mul_comm b b']

/-- Rounding is monotone in the quotient. -/
theorem rneDiv_le_of_cross (a b a' b' : Nat) (hb : 0 < b) (hb' : 0 < b')
    (h : a * b' ≤ a' * b) : rneDiv a b ≤ rneDiv a' b' := by
  rw [← rneDiv_scale a b b' hb', ← rneDiv_scale a' b' b hb, Nat.mul_comm b' b]
  exact rneDiv_mono _ _ _ (Nat.mul_pos hb hb') h

/-! ### Powers of two in `ℚ` -/

theorem two_zpow_pos (k : ℤ) : (0 : ℚ) < 2 ^ k := zpow_pos (by norm_num) k

theorem two_zpow_add (a b : ℤ) : (2 : ℚ) ^ (a + b) = 2 ^ a * 2 ^ b :=
  zpow_add₀ (by norm_num) a b

theorem two_zpow_le {a b : ℤ} (h : a ≤ b) : (2 : ℚ) ^ a ≤ 2 ^ b :=
  zpow_le_zpow_right₀ (by norm_num) h

theorem two_zpow_lt {a b : ℤ} (h : a < b) : (2 : ℚ) ^ a < 2 ^ b :=
  zpow_lt_zpow_right₀ (by norm_num) h

theorem cast_two_pow (n : ℕ) : ((2 ^ n : ℕ) : ℚ) = (2 : ℚ) ^ (n : ℤ) := by
  push_cast
  rw [zpow_natCast]

theorem cast_two_pow_toNat (k : ℤ) (h : 0 ≤ k) : ((2 ^ k.toNat : ℕ) : ℚ) = (2 : ℚ) ^ k := by
  rw [cast_two_pow, Int.toNat_of_nonneg h]

/-! ### The rounded significand -/

theorem mag_nonneg (M : Nat) (E : Int) : 0 ≤ mag M E :=
  mul_nonneg (Nat.cast_nonneg M) (two_zpow_pos E).le

theorem mag_pos {M : Nat} (h : M ≠ 0) (E : Int) : 0 < mag M E :=
  mul_pos (Nat.cast_pos.2 (Nat.pos_of_ne_zero h)) (two_zpow_pos E)

theorem shift_cast (M : ℕ) (E t : ℤ) :
    ((M * 2 ^ (E - t).toNat : ℕ) : ℚ)
      = mag M E * 2 ^ (-t) * ((2 ^ (t - E).toNat : ℕ) : ℚ) := by
  unfold mag
  rcases le_total t E with h | h
  · have h1 : (t - E).toNat = 0 := Int.toNat_eq_zero.2 (by omega)
    rw [h1, Nat.cast_mul, cast_two_pow_toNat _ (by omega)]
    have : (2 : ℚ) ^ (E - t) = 2 ^ E * 2 ^ (-t) := by rw [← two_zpow_add]; congr 1
    rw [this]
    simp
    ring
  · have h1 : (E - t).toNat = 0 := Int.toNat_eq_zero.2 (by omega)
    rw [h1, cast_two_pow_toNat _ (by omega)]
    have : (2 : ℚ) ^ E * 2 ^ (-t) * 2 ^ (t - E) = 1 := by
      rw [← two_zpow_add, ← two_zpow_add]
      have : E + -t + (t - E) = 0 := by ring
      rw [this]; simp
    simp only [pow_zero, mul_one]
    rw [mul_assoc, mul_assoc, ← mul_assoc (2 ^ E), this, mul_one]

theorem shift_den_pos (E t : ℤ) : 0 < 2 ^ (t - E).toNat := Nat.pos_pow_of_pos _ (by norm_num)

theorem rqAt_le_of (M : ℕ) (E t : ℤ) (k : ℕ) (h : mag M E * 2 ^ (-t) ≤ k) :
    rqAt M E t ≤ k := by
  unfold rqAt
  have hB := shift_den_pos E t
  have hN : M * 2 ^ (E - t).toNat ≤ k * 2 ^ (t - E).toNat := by
    have : ((M * 2 ^ (E - t).toNat : ℕ) : ℚ) ≤ ((k * 2 ^ (t - E).toNat : ℕ) : ℚ) := by
      rw [shift_cast M E t, Nat.cast_mul k]
      exact mul_le_mul_of_nonneg_right h (Nat.cast_nonneg _)
    exact_mod_cast this
  calc rneDiv (M * 2 ^ (E - t).toNat) (2 ^ (t - E).toNat)
      ≤ rneDiv (k * 2 ^ (t - E).toNat) (2 ^ (t - E).toNat) := rneDiv_mono _ _ _ hB hN
    _ = k := rneDiv_mul_left k _ hB

theorem rqAt_ge_of (M : ℕ) (E t : ℤ) (k : ℕ) (h : (k : ℚ) ≤ mag M E * 2 ^ (-t)) :
    k ≤ rqAt M E t := by
  unfold rqAt
  have hB := shift_den_pos E t
  have hN : k * 2 ^ (t - E).toNat ≤ M * 2 ^ (E - t).toNat := by
    have : ((k * 2 ^ (t - E).toNat : ℕ) : ℚ) ≤ ((M * 2 ^ (E - t).toNat : ℕ) : ℚ) := by
      rw [shift_cast M E t, Nat.cast_mul k]
      exact mul_le_mul_of_nonneg_right h (Nat.cast_nonneg _)
    exact_mod_cast this
  calc k = rneDiv (k * 2 ^ (t - E).toNat) (2 ^ (t - E).toNat) := (rneDiv_mul_left k _ hB).symm
    _ ≤ rneDiv (M * 2 ^ (E - t).toNat) (2 ^ (t - E).toNat) := rneDiv_mono _ _ _ hB hN

theorem rqAt_mono (M : ℕ) (E t : ℤ) (M' : ℕ) (E' t' : ℤ)
    (h : mag M E * 2 ^ (-t) ≤ mag M' E' * 2 ^ (-t')) : rqAt M E t ≤ rqAt M' E' t' := by
  unfold rqAt
  have hB := shift_den_pos E t
  have hB' := shift_den_pos E' t'
  apply rneDiv_le_of_cross _ _ _ _ hB hB'
  have : ((M * 2 ^ (E - t).toNat * 2 ^ (t' - E').toNat : ℕ) : ℚ)
      ≤ ((M' * 2 ^ (E' - t').toNat * 2 ^ (t - E).toNat : ℕ) : ℚ) := by
    rw [Nat.cast_mul, Nat.cast_mul (M' * _), shift_cast M E t, shift_cast M' E' t']
    have p1 : (0 : ℚ) ≤ ((2 ^ (t - E).toNat : ℕ) : ℚ) := Nat.cast_nonneg _
    have p2 : (0 : ℚ) ≤ ((2 ^ (t' - E').toNat : ℕ) : ℚ) := Nat.cast_nonneg _
    have := mul_le_mul_of_nonneg_right (mul_le_mul_of_nonneg_right h p1) p2
    linarith
  exact_mod_cast this

theorem rqAt_bounds (M : ℕ) (E t : ℤ) :
    (rqAt M E t : ℚ) ≤ mag M E * 2 ^ (-t) + 1 / 2 ∧
    mag M E * 2 ^ (-t) ≤ (rqAt M E t : ℚ) + 1 / 2 := by
  have hB := shift_den_pos E t
  obtain ⟨h1, h2⟩ := rneDiv_bounds (M * 2 ^ (E - t).toNat) (2 ^ (t - E).toNat) hB
  have hBq : (0 : ℚ) < ((2 ^ (t - E).toNat : ℕ) : ℚ) := Nat.cast_pos.2 hB
  have e1 := shift_cast M E t
  have c1 : (2 : ℚ) * ((2 ^ (t - E).toNat : ℕ) : ℚ) * (rqAt M E t : ℚ)
      ≤ 2 * ((M * 2 ^ (E - t).toNat : ℕ) : ℚ) + ((2 ^ (t - E).toNat : ℕ) : ℚ) := by
    exact_mod_cast h1
  have c2 : (2 : ℚ) * ((M * 2 ^ (E - t).toNat : ℕ) : ℚ)
      ≤ 2 * ((2 ^ (t - E).toNat : ℕ) : ℚ) * (rqAt M E t : ℚ) + ((2 ^ (t - E).toNat : ℕ) : ℚ) := by
    exact_mod_cast h2
  rw [e1] at c1 c2
  generalize ((2 ^ (t - E).toNat : ℕ) : ℚ) = B at hBq c1 c2
  generalize mag M E * 2 ^ (-t) = r at c1 c2 ⊢
  generalize (rqAt M E t : ℚ) = q at c1 c2 ⊢
  constructor
  · by_contra hc
    push_neg at hc
    nlinarith
  · by_contra hc
    push_neg at hc
    nlinarith

/-! ### Size of a magnitude -/

theorem size_bounds {M : ℕ} (h : M ≠ 0) :
    (2 : ℚ) ^ ((Nat.size M : ℤ) - 1) ≤ M ∧ (M : ℚ) < 2 ^ (Nat.size M : ℤ) := by
  have hs : 0 < Nat.size M := Nat.size_pos.2 (Nat.pos_of_ne_zero h)
  constructor
  · have h1 : 2 ^ (Nat.size M - 1) ≤ M := Nat.lt_size.1 (by omega)
    have e : ((Nat.size M : ℤ) - 1) = ((Nat.size M - 1 : ℕ) : ℤ) := by omega
    rw [e, ← cast_two_pow]
    exact_mod_cast h1
  · rw [← cast_two_pow]
    exact_mod_cast Nat.lt_size_self M

theorem mag_bounds {M : ℕ} (h : M ≠ 0) (E : ℤ) :
    (2 : ℚ) ^ ((Nat.size M : ℤ) - 1 + E) ≤ mag M E ∧ mag M E < 2 ^ ((Nat.size M : ℤ) + E) := by
  obtain ⟨h1, h2⟩ := size_bounds h
  unfold mag
  rw [two_zpow_add, two_zpow_add]
  exact ⟨mul_le_mul_of_nonneg_right h1 (two_zpow_pos E).le,
    mul_lt_mul_of_pos_right h2 (two_zpow_pos E)⟩

theorem ulpExp_eq (M : ℕ) (E : ℤ) :
    ulpExp M E = max (E + (Nat.size M : ℤ) - 53) (-1074) := by
  unfold ulpExp
  rw [bitLen_eq_size]

theorem rq_le (M : ℕ) (E : ℤ) : rqAt M E (ulpExp M E) ≤ 2 ^ 53 := by
  rcases Nat.eq_zero_or_pos M with h0 | hpos
  · subst h0
    simp [rqAt, rneDiv]
  · apply rqAt_le_of
    have hM : M ≠ 0 := by omega
    obtain ⟨_, h2⟩ := mag_bounds hM E
    have ht : E + (Nat.size M : ℤ) - 53 ≤ ulpExp M E := by rw [ulpExp_eq]; exact le_max_left _ _
    have h3 : mag M E * 2 ^ (-ulpExp M E) < 2 ^ ((Nat.size M : ℤ) + E) * 2 ^ (-ulpExp M E) :=
      mul_lt_mul_of_pos_right h2 (two_zpow_pos _)
    rw [← two_zpow_add] at h3
    have h4 : (2 : ℚ) ^ ((Nat.size M : ℤ) + E + -ulpExp M E) ≤ 2 ^ (53 : ℤ) :=
      two_zpow_le (by omega)
    have h5 : ((2 ^ 53 : ℕ) : ℚ) = 2 ^ (53 : ℤ) := by norm_num
    rw [h5]
    linarith

theorem rq_ge {M : ℕ} (hM : M ≠ 0) (E : ℤ) (ht : ulpExp M E ≠ -1074) :
    2 ^ 52 ≤ rqAt M E (ulpExp M E) := by
  apply rqAt_ge_of
  obtain ⟨h1, _⟩ := mag_bounds hM E
  have hte : ulpExp M E = E + (Nat.size M : ℤ) - 53 := by
    have := ulpExp_eq M E
    rcases max_cases (E + (Nat.size M : ℤ) - 53) (-1074) with ⟨h, _⟩ | ⟨h, _⟩
    · rw [this, h]
    · rw [h] at this; exact absurd this ht
  have h3 : (2 : ℚ) ^ ((Nat.size M : ℤ) - 1 + E) * 2 ^ (-ulpExp M E)
      ≤ mag M E * 2 ^ (-ulpExp M E) :=
    mul_le_mul_of_nonneg_right h1 (two_zpow_pos _).le
  rw [← two_zpow_add] at h3
  have h4 : (Nat.size M : ℤ) - 1 + E + -ulpExp M E = 52 := by rw [hte]; ring
  rw [h4] at h3
  have h5 : ((2 ^ 52 : ℕ) : ℚ) = 2 ^ (52 : ℤ) := by norm_num
  rw [h5]
  exact h3

/-! ### Value of a rounded result -/

theorem sgn_cast (s : Bool) (m : ℕ) : ((sgn s m : ℤ) : ℚ) = sig s * m := by
  cases s <;> simp [sgn, sig]

theorem key_fin (s : Bool) (m : ℕ) (e : ℤ) : key (fin s m e) = sig s * mag m e := by
  simp only [key, sgn_cast, mag, mul_assoc]

theorem rqAt_zero (E t : ℤ) : rqAt 0 E t = 0 := by
  simp [rqAt, rneDiv_zero]

theorem rmag_zero (E : ℤ) : rmag 0 E = 0 := by
  simp [rmag, rqAt_zero]

theorem rmag_nonneg (M : ℕ) (E : ℤ) : 0 ≤ rmag M E :=
  mul_nonneg (Nat.cast_nonneg _) (two_zpow_pos _).le

theorem ulpExp_ge (M : ℕ) (E : ℤ) : -1074 ≤ ulpExp M E := le_max_right _ _

theorem ulpExp_cases (M : ℕ) (E : ℤ) :
    (ulpExp M E = -1074 ∧ E + (Nat.size M : ℤ) - 53 ≤ -1074) ∨
    (ulpExp M E = E + (Nat.size M : ℤ) - 53 ∧ -1074 ≤ E + (Nat.size M : ℤ) - 53) := by
  rw [ulpExp_eq]
  rcases max_cases (E + (Nat.size M : ℤ) - 53) (-1074) with ⟨h, h'⟩ | ⟨h, h'⟩
  · right; exact ⟨h, h'⟩
  · left; exact ⟨h, h'.le⟩

theorem rq_le_cast (M : ℕ) (E : ℤ) : (rqAt M E (ulpExp M E) : ℚ) ≤ 2 ^ (53 : ℤ) := by
  have h : ((rqAt M E (ulpExp M E) : ℕ) : ℚ) ≤ ((2 ^ 53 : ℕ) : ℚ) := Nat.cast_le.2 (rq_le M E)
  have e : ((2 ^ 53 : ℕ) : ℚ) = 2 ^ (53 : ℤ) := by norm_num
  rwa [e] at h

theorem rq_ge_cast {M : ℕ} (hM : M ≠ 0) (E : ℤ) (ht : ulpExp M E ≠ -1074) :
    (2 : ℚ) ^ (52 : ℤ) ≤ (rqAt M E (ulpExp M E) : ℚ) := by
  have h : ((2 ^ 52 : ℕ) : ℚ) ≤ ((rqAt M E (ulpExp M E) : ℕ) : ℚ) :=
    Nat.cast_le.2 (rq_ge hM E ht)
  have e : ((2 ^ 52 : ℕ) : ℚ) = 2 ^ (52 : ℤ) := by norm_num
  rwa [e] at h

theorem rmag_mono (M : ℕ) (E : ℤ) (M' : ℕ) (E' : ℤ) (h : mag M E ≤ mag M' E') :
    rmag M E ≤ rmag M' E' := by
  rcases Nat.eq_zero_or_pos M with h0 | hpos
  · subst h0
    rw [rmag_zero]
    exact rmag_nonneg _ _
  have hM : M ≠ 0 := by omega
  have hM' : M' ≠ 0 := by
    rintro rfl
    have := mag_pos hM E
    simp [mag] at h
    unfold mag at this
    linarith
  obtain ⟨l1, _⟩ := mag_bounds hM E
  obtain ⟨_, u2⟩ := mag_bounds hM' E'
  have hsz : (Nat.size M : ℤ) + E ≤ (Nat.size M' : ℤ) + E' := by
    have : (2 : ℚ) ^ ((Nat.size M : ℤ) - 1 + E) < 2 ^ ((Nat.size M' : ℤ) + E') := by linarith
    have := (zpow_lt_zpow_iff_right₀ (by norm_num : (1 : ℚ) < 2)).1 this
    omega
  have htt : ulpExp M E ≤ ulpExp M' E' := by
    rw [ulpExp_eq, ulpExp_eq]
    exact max_le_max (by omega) le_rfl
  rcases eq_or_lt_of_le htt with heq | hlt
  · unfold rmag
    rw [← heq]
    apply mul_le_mul_of_nonneg_right _ (two_zpow_pos _).le
    have : rqAt M E (ulpExp M E) ≤ rqAt M' E' (ulpExp M E) :=
      rqAt_mono _ _ _ _ _ _ (mul_le_mul_of_nonneg_right h (two_zpow_pos _).le)
    exact_mod_cast this
  · have hne : ulpExp M' E' ≠ -1074 := by
      have := ulpExp_ge M E
      omega
    have hq' := rq_ge hM' E' hne
    have hq := rq_le M E
    unfold rmag
    have c1 := rq_le_cast M E
    have c2 := rq_ge_cast hM' E' hne
    calc (rqAt M E (ulpExp M E) : ℚ) * 2 ^ ulpExp M E
        ≤ 2 ^ (53 : ℤ) * 2 ^ ulpExp M E :=
          mul_le_mul_of_nonneg_right c1 (two_zpow_pos _).le
      _ = 2 ^ (53 + ulpExp M E) := (two_zpow_add _ _).symm
      _ ≤ 2 ^ (52 + ulpExp M' E') := two_zpow_le (by omega)
      _ = 2 ^ (52 : ℤ) * 2 ^ ulpExp M' E' := two_zpow_add _ _
      _ ≤ (rqAt M' E' (ulpExp M' E') : ℚ) * 2 ^ ulpExp M' E' :=
          mul_le_mul_of_nonneg_right c2 (two_zpow_pos _).le

theorem rmag_congr (M : ℕ) (E : ℤ) (M' : ℕ) (E' : ℤ) (h : mag M E = mag M' E') :
    rmag M E = rmag M' E' :=
  le_antisymm (rmag_mono _ _ _ _ h.le) (rmag_mono _ _ _ _ h.ge)

theorem zpow_neg_mul_self (t : ℤ) : (2 : ℚ) ^ (-t) * 2 ^ t = 1 := by
  rw [← two_zpow_add]
  simp

/-- A magnitude that is a whole multiple of its unit in the last place is
not changed by rounding. -/
theorem rmag_exact (M : ℕ) (E : ℤ) (k : ℕ) (h : mag M E = k * 2 ^ ulpExp M E) :
    rmag M E = mag M E := by
  have hr : mag M E * 2 ^ (-ulpExp M E) = k := by
    rw [h, mul_assoc, mul_comm (2 ^ ulpExp M E), zpow_neg_mul_self, mul_one]
  have h1 := rqAt_le_of M E (ulpExp M E) k hr.le
  have h2 := rqAt_ge_of M E (ulpExp M E) k hr.ge
  have : rqAt M E (ulpExp M E) = k := le_antisymm h1 h2
  unfold rmag
  rw [this, h]

theorem rmag_err_ulp (M : ℕ) (E : ℤ) :
    |rmag M E - mag M E| ≤ 2 ^ (ulpExp M E) / 2 := by
  obtain ⟨h1, h2⟩ := rqAt_bounds M E (ulpExp M E)
  have hp := two_zpow_pos (ulpExp M E)
  have e : mag M E = mag M E * 2 ^ (-ulpExp M E) * 2 ^ ulpExp M E := by
    rw [mul_assoc, zpow_neg_mul_self, mul_one]
  unfold rmag
  rw [abs_le]
  constructor
  · have := mul_le_mul_of_nonneg_right h2 hp.le
    nlinarith
  · have := mul_le_mul_of_nonneg_right h1 hp.le
    nlinarith

theorem rmag_err (M : ℕ) (E : ℤ) :
    |rmag M E - mag M E| ≤ 2 ^ (-53 : ℤ) * mag M E + 2 ^ (-1075 : ℤ) := by
  rcases Nat.eq_zero_or_pos M with h0 | hpos
  · subst h0
    rw [rmag_zero]
    simp [mag]
    positivity
  have hM : M ≠ 0 := by omega
  refine le_trans (rmag_err_ulp M E) ?_
  have hmag := mag_nonneg M E
  have hdiv : ∀ t : ℤ, (2 : ℚ) ^ t / 2 = 2 ^ (t - 1) := by
    intro t
    have : (2 : ℚ) ^ t = 2 ^ (t - 1) * 2 ^ (1 : ℤ) := by rw [← two_zpow_add]; congr 1; ring
    rw [this]; simp
  rw [hdiv]
  rcases ulpExp_cases M E with ⟨ht, _⟩ | ⟨ht, _⟩
  · rw [ht]
    have : (0 : ℚ) ≤ 2 ^ (-53 : ℤ) * mag M E := mul_nonneg (two_zpow_pos _).le hmag
    have e : (-1074 : ℤ) - 1 = -1075 := by norm_num
    rw [e]
    linarith
  · obtain ⟨l1, _⟩ := mag_bounds hM E
    have h3 : (2 : ℚ) ^ (ulpExp M E - 1) = 2 ^ (-53 : ℤ) * 2 ^ ((Nat.size M : ℤ) - 1 + E) := by
      rw [← two_zpow_add]; congr 1; rw [ht]; ring
    rw [h3]
    have := mul_le_mul_of_nonneg_left l1 (two_zpow_pos (-53)).le
    have := two_zpow_pos (-1075)
    linarith

theorem roundNE_def (s : Bool) (M : ℕ) (E : ℤ) (hM : M ≠ 0) :
    roundNE s M E =
      if rqAt M E (ulpExp M E) = 2 ^ 53 then
        (if 971 < ulpExp M E + 1 then inf s else fin s (2 ^ 52) (ulpExp M E + 1))
      else if 971 < ulpExp M E then inf s
      else fin s (rqAt M E (ulpExp M E)) (ulpExp M E) := by
  simp only [roundNE, hM, if_false, rqAt]

theorem roundNE_valid (s : Bool) (M : ℕ) (E : ℤ) : (roundNE s M E).Valid := by
  rcases Nat.eq_zero_or_pos M with h0 | hpos
  · subst h0
    simp [roundNE, Valid]
  have hM : M ≠ 0 := by omega
  rw [roundNE_def s M E hM]
  have hge := ulpExp_ge M E
  have hq := rq_le M E
  split
  · split
    · trivial
    · simp only [Valid]
      refine ⟨by norm_num, by omega, by omega, Or.inr le_rfl⟩
  · split
    · trivial
    · rename_i hne hle
      simp only [Valid]
      refine ⟨by omega, hge, by omega, ?_⟩
      by_cases ht : ulpExp M E = -1074
      · exact Or.inl ht
      · exact Or.inr (rq_ge hM E ht)

theorem roundNE_ne_nan (s : Bool) (M : ℕ) (E : ℤ) : roundNE s M E ≠ nan := by
  unfold roundNE
  split
  · simp
  · simp only []
    split <;> split <;> simp

theorem key_roundNE (s : Bool) (M : ℕ) (E : ℤ) :
    key (roundNE s M E) = sig s * min (rmag M E) (2 ^ (1024 : ℤ)) := by
  rcases Nat.eq_zero_or_pos M with h0 | hpos
  · subst h0
    have : (0 : ℚ) ≤ 2 ^ (1024 : ℤ) := (two_zpow_pos _).le
    simp [roundNE, key_fin, mag, rmag_zero, min_eq_left this]
  have hM : M ≠ 0 := by omega
  rw [roundNE_def s M E hM]
  have hge := ulpExp_ge M E
  have hq := rq_le M E
  have hinf : key (inf s) = sig s * 2 ^ (1024 : ℤ) := by cases s <;> simp [key, sig]
  split
  · rename_i h53
    have hr : rmag M E = 2 ^ (53 + ulpExp M E) := by
      unfold rmag
      rw [h53, two_zpow_add]
      norm_num
    split
    · rename_i hov
      have : (2 : ℚ) ^ (1024 : ℤ) ≤ rmag M E := by rw [hr]; exact two_zpow_le (by omega)
      rw [hinf, min_eq_right this]
    · rename_i hov
      have : rmag M E ≤ 2 ^ (1024 : ℤ) := by rw [hr]; exact two_zpow_le (by omega)
      rw [key_fin, min_eq_left this, hr]
      unfold mag
      have : (2 : ℚ) ^ (53 + ulpExp M E) = 2 ^ (52 : ℤ) * 2 ^ (ulpExp M E + 1) := by
        rw [← two_zpow_add]; congr 1; ring
      rw [this]
      norm_num
  · rename_i h53
    split
    · rename_i hov
      have hne : ulpExp M E ≠ -1074 := by omega
      have hq' := rq_ge hM E hne
      have c2 := rq_ge_cast hM E hne
      have : (2 : ℚ) ^ (1024 : ℤ) ≤ rmag M E := by
        unfold rmag
        calc (2 : ℚ) ^ (1024 : ℤ) ≤ 2 ^ (52 + ulpExp M E) := two_zpow_le (by omega)
          _ = 2 ^ (52 : ℤ) * 2 ^ ulpExp M E := two_zpow_add _ _
          _ ≤ _ := mul_le_mul_of_nonneg_right c2 (two_zpow_pos _).le
      rw [hinf, min_eq_right this]
    · rename_i hov
      have hlt : rqAt M E (ulpExp M E) < 2 ^ 53 := lt_of_le_of_ne hq h53
      have c1 := rq_le_cast M E
      have : rmag M E ≤ 2 ^ (1024 : ℤ) := by
        unfold rmag
        calc (rqAt M E (ulpExp M E) : ℚ) * 2 ^ ulpExp M E
            ≤ 2 ^ (53 : ℤ) * 2 ^ ulpExp M E :=
              mul_le_mul_of_nonneg_right c1 (two_zpow_pos _).le
          _ = 2 ^ (53 + ulpExp M E) := (two_zpow_add _ _).symm
          _ ≤ 2 ^ (1024 : ℤ) := two_zpow_le (by omega)
      rw [key_fin, min_eq_left this]
      rfl

/-! ### Order on doubles through the key -/

theorem sig_mul_self (s : Bool) : sig s * sig s = 1 := by cases s <;> simp [sig]

theorem sig_xor (s t : Bool) : sig (xor s t) = sig s * sig t := by
  cases s <;> cases t <;> simp [sig]

theorem align_cast (s : Bool) (m : ℕ) (e g : ℤ) (h : g ≤ e) :
    ((sgn s (m * 2 ^ (e - g).toNat) : ℤ) : ℚ) * 2 ^ g = sig s * mag m e := by
  rw [sgn_cast, Nat.cast_mul, cast_two_pow_toNat _ (by omega)]
  unfold mag
  have : (2 : ℚ) ^ (e - g) * 2 ^ g = 2 ^ e := by rw [← two_zpow_add]; congr 1; ring
  rw [mul_assoc, mul_assoc, this]

theorem key_le_top {a : Double} (hv : a.Valid) : key a ≤ 2 ^ (1024 : ℤ) := by
  have hT := two_zpow_pos 1024
  cases a with
  | nan => simp only [key]; linarith
  | inf s => cases s <;> simp only [key, if_true, if_false, Bool.false_eq_true] <;> linarith
  | fin s m e =>
    obtain ⟨h1, h2, h3, _⟩ := hv
    rw [key_fin]
    have hm : (m : ℚ) ≤ 2 ^ (53 : ℤ) := by
      have : ((m : ℕ) : ℚ) ≤ ((2 ^ 53 : ℕ) : ℚ) := Nat.cast_le.2 h1.le
      have e : ((2 ^ 53 : ℕ) : ℚ) = 2 ^ (53 : ℤ) := by norm_num
      rwa [e] at this
    have hb : mag m e ≤ 2 ^ (1024 : ℤ) := by
      unfold mag
      calc (m : ℚ) * 2 ^ e ≤ 2 ^ (53 : ℤ) * 2 ^ e :=
            mul_le_mul_of_nonneg_right hm (two_zpow_pos _).le
        _ = 2 ^ (53 + e) := (two_zpow_add _ _).symm
        _ ≤ 2 ^ (1024 : ℤ) := two_zpow_le (by omega)
    have := mag_nonneg m e
    cases s <;> simp [sig] <;> linarith

theorem mag_lt_top {m : ℕ} {e : ℤ} (h1 : m < 2 ^ 53) (h3 : e ≤ 971) :
    mag m e < 2 ^ (1024 : ℤ) := by
  have hm : (m : ℚ) < 2 ^ (53 : ℤ) := by
    have : ((m : ℕ) : ℚ) < ((2 ^ 53 : ℕ) : ℚ) := Nat.cast_lt.2 h1
    have e : ((2 ^ 53 : ℕ) : ℚ) = 2 ^ (53 : ℤ) := by norm_num
    rwa [e] at this
  unfold mag
  calc (m : ℚ) * 2 ^ e < 2 ^ (53 : ℤ) * 2 ^ e :=
        mul_lt_mul_of_pos_right hm (two_zpow_pos _)
    _ = 2 ^ (53 + e) := (two_zpow_add _ _).symm
    _ ≤ 2 ^ (1024 : ℤ) := two_zpow_le (by omega)

theorem key_ge_bot {a : Double} (hv : a.Valid) : -(2 ^ (1024 : ℤ)) ≤ key a := by
  have hT := two_zpow_pos 1024
  cases a with
  | nan => simp only [key]; linarith
  | inf s => cases s <;> simp only [key, if_true, if_false, Bool.false_eq_true] <;> linarith
  | fin s m e =>
    obtain ⟨h1, h2, h3, _⟩ := hv
    rw [key_fin]
    have := mag_lt_top h1 h3
    have := mag_nonneg m e
    cases s <;> simp [sig] <;> linarith

/-- For canonical non-NaN doubles `<=` compares the keys. -/
theorem le_iff_key {a b : Double} (ha : a.Valid) (hb : b.Valid) (hna : a ≠ nan) (hnb : b ≠ nan) :
    le a b = true ↔ key a ≤ key b := by
  have hT := two_zpow_pos 1024
  cases a with
  | nan => exact absurd rfl hna
  | inf s =>
    cases b with
    | nan => exact absurd rfl hnb
    | inf t => cases s <;> cases t <;> simp [le, key] <;> linarith
    | fin t n f =>
      obtain ⟨h1, h2, h3, _⟩ := hb
      have := mag_lt_top h1 h3
      have := mag_nonneg n f
      rw [key_fin]
      cases s <;> cases t <;> simp [le, key, sig] <;> linarith
  | fin s m e =>
    cases b with
    | nan => exact absurd rfl hnb
    | inf t =>
      obtain ⟨h1, h2, h3, _⟩ := ha
      have := mag_lt_top h1 h3
      have := mag_nonneg m e
      rw [key_fin]
      cases s <;> cases t <;> simp [le, key, sig] <;> linarith
    | fin t n f =>
      simp only [le, decide_eq_true_eq]
      rw [key_fin, key_fin, ← align_cast s m e (min e f) (min_le_left _ _),
        ← align_cast t n f (min e f) (min_le_right _ _)]
      rw [mul_le_mul_right (two_zpow_pos _)]
      exact Int.cast_le.symm

/-- For canonical non-NaN doubles `<` compares the keys. -/
theorem lt_iff_key {a b : Double} (ha : a.Valid) (hb : b.Valid) (hna : a ≠ nan) (hnb : b ≠ nan) :
    lt a b = true ↔ key a < key b := by
  have hT := two_zpow_pos 1024
  cases a with
  | nan => exact absurd rfl hna
  | inf s =>
    cases b with
    | nan => exact absurd rfl hnb
    | inf t => cases s <;> cases t <;> simp [lt, key] <;> linarith
    | fin t n f =>
      obtain ⟨h1, h2, h3, _⟩ := hb
      have := mag_lt_top h1 h3
      have := mag_nonneg n f
      rw [key_fin]
      cases s <;> cases t <;> simp [lt, key, sig] <;> linarith
  | fin s m e =>
    cases b with
    | nan => exact absurd rfl hnb
    | inf t =>
      obtain ⟨h1, h2, h3, _⟩ := ha
      have := mag_lt_top h1 h3
      have := mag_nonneg m e
      rw [key_fin]
      cases s <;> cases t <;> simp [lt, key, sig] <;> linarith
    | fin t n f =>
      simp only [lt, decide_eq_true_eq]
      rw [key_fin, key_fin, ← align_cast s m e (min e f) (min_le_left _ _),
        ← align_cast t n f (min e f) (min_le_right _ _)]
      rw [mul_lt_mul_right (two_zpow_pos _)]
      exact Int.cast_lt.symm

/-! ### Correct rounding as a relation -/

theorem mag_eq_zero {M : ℕ} {E : ℤ} (h : mag M E = 0) : M = 0 := by
  by_contra hM
  have := mag_pos hM E
  linarith

theorem roundNE_key_mono (s : Bool) (M : ℕ) (E : ℤ) (s' : Bool) (M' : ℕ) (E' : ℤ)
    (h : sval s M E ≤ sval s' M' E') : key (roundNE s M E) ≤ key (roundNE s' M' E') := by
  rw [key_roundNE, key_roundNE]
  have hT := two_zpow_pos 1024
  have n1 := rmag_nonneg M E
  have n2 := rmag_nonneg M' E'
  have m1 : 0 ≤ min (rmag M E) (2 ^ (1024 : ℤ)) := le_min n1 hT.le
  have m2 : 0 ≤ min (rmag M' E') (2 ^ (1024 : ℤ)) := le_min n2 hT.le
  have p1 := mag_nonneg M E
  have p2 := mag_nonneg M' E'
  unfold sval at h
  cases s <;> cases s' <;> simp only [sig, if_true, if_false, Bool.false_eq_true] at h ⊢
  · have := rmag_mono M E M' E' (by linarith)
    have := min_le_min_right (2 ^ (1024 : ℤ)) this
    linarith
  · have h0 : mag M E = 0 := by linarith
    have h0' : mag M' E' = 0 := by linarith
    have e1 := mag_eq_zero h0
    have e2 := mag_eq_zero h0'
    subst e1; subst e2
    simp [rmag_zero, min_eq_left hT.le]
  · linarith
  · have := rmag_mono M' E' M E (by linarith)
    have := min_le_min_right (2 ^ (1024 : ℤ)) this
    linarith

theorem Rounds.mono {v v' : ℚ} {a a' : Double} (h : Rounds v a) (h' : Rounds v' a')
    (hv : v ≤ v') : key a ≤ key a' := by
  obtain ⟨_, _, s, M, E, hs, hk⟩ := h
  obtain ⟨_, _, s', M', E', hs', hk'⟩ := h'
  rw [hk, hk']
  exact roundNE_key_mono _ _ _ _ _ _ (by rw [hs, hs']; exact hv)

theorem Rounds.key_eq {v : ℚ} {a a' : Double} (h : Rounds v a) (h' : Rounds v a') :
    key a = key a' :=
  le_antisymm (h.mono h' le_rfl) (h'.mono h le_rfl)

theorem rmag_exact_of_le (M : ℕ) (E : ℤ) (h : ulpExp M E ≤ E) : rmag M E = mag M E := by
  apply rmag_exact M E (M * 2 ^ (E - ulpExp M E).toNat)
  rw [Nat.cast_mul, cast_two_pow_toNat _ (by omega)]
  unfold mag
  rw [mul_assoc, ← two_zpow_add]
  congr 2
  ring

theorem roundNE_self (s : Bool) (m : ℕ) (e : ℤ) (hv : (fin s m e).Valid) :
    key (roundNE s m e) = key (fin s m e) := by
  obtain ⟨h1, h2, h3, h4⟩ := hv
  rw [key_roundNE, key_fin]
  have hsz : Nat.size m ≤ 53 := Nat.size_le.2 h1
  have ht : ulpExp m e ≤ e := by
    rw [ulpExp_eq]
    exact max_le (by omega) h2
  rw [rmag_exact_of_le m e ht, min_eq_left (mag_lt_top h1 h3).le]

theorem roundNE_top (s : Bool) : key (roundNE s 1 1024) = key (inf s) := by
  have h : roundNE s 1 1024 = inf s := by cases s <;> decide
  rw [h]

theorem sval_top (s : Bool) : sval s 1 1024 = key (inf s) := by
  cases s <;> simp [sval, key, sig, mag]

/-- Every canonical non-NaN double is the rounding of its own key. -/
theorem rounds_self {a : Double} (hv : a.Valid) (hn : a ≠ nan) : Rounds (key a) a := by
  refine ⟨hv, hn, ?_⟩
  cases a with
  | nan => exact absurd rfl hn
  | inf s => exact ⟨s, 1, 1024, sval_top s, (roundNE_top s).symm⟩
  | fin s m e => exact ⟨s, m, e, (key_fin s m e).symm, (roundNE_self s m e hv).symm⟩

/-- A rounding of a representable value is that value. -/
theorem Rounds.exact {v : ℚ} {a b : Double} (h : Rounds v a) (hb : b.Valid) (hn : b ≠ nan)
    (hv : key b = v) : key a = v := by
  have := rounds_self hb hn
  rw [hv] at this
  rw [h.key_eq this, hv]

/-! ### The arithmetic operations round correctly -/

theorem mul_valid (a b : Double) : (mul a b).Valid := by
  cases a <;> cases b <;> simp only [mul] <;> first
    | trivial
    | exact roundNE_valid _ _ _
    | (split <;> trivial)

theorem add_valid (a b : Double) : (add a b).Valid := by
  cases a <;> cases b <;> simp only [add] <;> first
    | trivial
    | (split <;> trivial)
    | (split
       · simp [Valid]
       · exact roundNE_valid _ _ _)

theorem sig_natAbs (z : ℤ) : sig (decide (z < 0)) * (z.natAbs : ℚ) = z := by
  have hc : ((z.natAbs : ℕ) : ℚ) = ((|z| : ℤ) : ℚ) := by rw [Nat.cast_natAbs]
  rcases lt_or_le z 0 with h | h
  · rw [hc, abs_of_neg h]
    simp [sig, h]
  · rw [hc, abs_of_nonneg h]
    simp [sig, not_lt.2 h]

/-- Exact value of the aligned sum used by `add`. -/
theorem align_sum (s : Bool) (m : ℕ) (e : ℤ) (t : Bool) (n : ℕ) (f : ℤ) :
    sval (decide (sgn s (m * 2 ^ (e - min e f).toNat) + sgn t (n * 2 ^ (f - min e f).toNat) < 0))
        (sgn s (m * 2 ^ (e - min e f).toNat) + sgn t (n * 2 ^ (f - min e f).toNat)).natAbs
        (min e f)
      = sig s * mag m e + sig t * mag n f := by
  unfold sval
  rw [mag, ← mul_assoc, sig_natAbs, Int.cast_add, add_mul,
    align_cast s m e (min e f) (min_le_left _ _), align_cast t n f (min e f) (min_le_right _ _)]

theorem key_add_fin (s : Bool) (m : ℕ) (e : ℤ) (t : Bool) (n : ℕ) (f : ℤ) :
    key (add (fin s m e) (fin t n f)) =
      key (roundNE
        (decide (sgn s (m * 2 ^ (e - min e f).toNat) + sgn t (n * 2 ^ (f - min e f).toNat) < 0))
        (sgn s (m * 2 ^ (e - min e f).toNat) + sgn t (n * 2 ^ (f - min e f).toNat)).natAbs
        (min e f)) := by
  simp only [add]
  split
  · rename_i hz
    rw [hz]
    simp [roundNE, key_fin, mag]
  · rfl

theorem roundNE_overflow (s : Bool) : roundNE s (2 ^ 55 - 1) 969 = inf s := by
  cases s <;> decide

theorem mag_overflow : mag (2 ^ 55 - 1) 969 = 2 ^ (1024 : ℤ) - 2 ^ (969 : ℤ) := by
  unfold mag
  have h1 : ((2 ^ 55 - 1 : ℕ) : ℚ) = 2 ^ (55 : ℤ) - 1 := by norm_num
  have h2 : (2 : ℚ) ^ (1024 : ℤ) = 2 ^ (55 : ℤ) * 2 ^ (969 : ℤ) := by
    rw [← two_zpow_add]; norm_num
  rw [h1, h2]
  ring

/-- Values within `2^969` of `±2^1024` round to the infinity. -/
theorem roundNE_key_top (s : Bool) (r : Bool) (M : ℕ) (E : ℤ)
    (h : sig s * sval r M E ≥ 2 ^ (1024 : ℤ) - 2 ^ (969 : ℤ)) :
    key (roundNE r M E) = key (inf s) := by
  have hv := roundNE_valid r M E
  cases s
  · have h1 : sval false (2 ^ 55 - 1) 969 ≤ sval r M E := by
      simp only [sig, Bool.false_eq_true, if_false, one_mul] at h
      simp only [sval, sig, Bool.false_eq_true, if_false, one_mul, mag_overflow]
      exact h
    have h2 := roundNE_key_mono _ _ _ _ _ _ h1
    rw [roundNE_overflow] at h2
    exact le_antisymm (key_le_top hv) h2
  · have h1 : sval r M E ≤ sval true (2 ^ 55 - 1) 969 := by
      have e : sval true (2 ^ 55 - 1) 969 = -(2 ^ (1024 : ℤ) - 2 ^ (969 : ℤ)) := by
        simp only [sval, sig, if_true, mag_overflow]
        ring
      rw [e]
      simp only [sig, if_true] at h
      linarith
    have h2 := roundNE_key_mono _ _ _ _ _ _ h1
    rw [roundNE_overflow] at h2
    refine le_antisymm h2 ?_
    have := key_ge_bot hv
    simpa [key] using this

theorem key_inf (s : Bool) : key (inf s) = sig s * 2 ^ (1024 : ℤ) := by
  cases s <;> simp [key, sig]

/-- Sum with a finite double of magnitude at most `2^969`. -/
theorem rounds_add (a : Double) (hn : a ≠ nan) (t : Bool) (n : ℕ) (f : ℤ)
    (hc : mag n f ≤ 2 ^ (969 : ℤ)) :
    Rounds (key a + key (fin t n f)) (add a (fin t n f)) := by
  refine ⟨add_valid _ _, ?_, ?_⟩
  · cases a with
    | nan => exact absurd rfl hn
    | inf s => simp [add]
    | fin s m e =>
      simp only [add]
      split
      · simp
      · exact roundNE_ne_nan _ _ _
  · cases a with
    | nan => exact absurd rfl hn
    | inf s =>
      refine ⟨_, _, _, (align_sum s 1 1024 t n f).trans
        (by rw [key_inf, key_fin]; simp [mag]), ?_⟩
      have hk : add (inf s) (fin t n f) = inf s := rfl
      rw [hk]
      symm
      apply roundNE_key_top s
      rw [align_sum]
      have h1 : mag 1 1024 = 2 ^ (1024 : ℤ) := by simp [mag]
      have h2 := mag_nonneg n f
      rw [h1, mul_add, ← mul_assoc, sig_mul_self, one_mul]
      cases s <;> cases t <;> simp [sig] <;> linarith
    | fin s m e =>
      refine ⟨_, _, _, ?_, key_add_fin s m e t n f⟩
      rw [align_sum, key_fin, key_fin]

theorem sval_mul (s : Bool) (m : ℕ) (e : ℤ) (t : Bool) (n : ℕ) (f : ℤ) :
    sval (xor s t) (m * n) (e + f) = (sig s * mag m e) * (sig t * mag n f) := by
  unfold sval mag
  rw [sig_xor, Nat.cast_mul, two_zpow_add]
  ring

/-- Product with a finite double of magnitude at least `1`. -/
theorem rounds_mul (a : Double) (hn : a ≠ nan) (t : Bool) (n : ℕ) (f : ℤ)
    (hc : 1 ≤ mag n f) :
    Rounds (key a * key (fin t n f)) (mul a (fin t n f)) := by
  have hn0 : n ≠ 0 := by
    rintro rfl
    simp [mag] at hc
    linarith
  refine ⟨mul_valid _ _, ?_, ?_⟩
  · cases a with
    | nan => exact absurd rfl hn
    | inf s => simp [mul, hn0]
    | fin s m e => exact roundNE_ne_nan _ _ _
  · cases a with
    | nan => exact absurd rfl hn
    | inf s =>
      have hk : mul (inf s) (fin t n f) = inf (xor s t) := by simp [mul, hn0]
      refine ⟨xor s t, 1 * n, 1024 + f, ?_, ?_⟩
      · rw [sval_mul, key_inf, key_fin]
        simp [mag]
      · rw [hk]
        symm
        apply roundNE_key_top
        have e : sig (xor s t) * sval (xor s t) (1 * n) (1024 + f)
            = 2 ^ (1024 : ℤ) * mag n f := by
          unfold sval
          rw [← mul_assoc, sig_mul_self, one_mul]
          unfold mag
          rw [two_zpow_add]
          push_cast
          ring
        rw [e]
        have hT := two_zpow_pos 1024
        have h9 := two_zpow_pos 969
        nlinarith
    | fin s m e =>
      exact ⟨xor s t, m * n, e + f, by rw [sval_mul, key_fin, key_fin], rfl⟩

/-! ### Finite results and their rounding error -/

theorem finite_of_key {a : Double} (hn : a ≠ nan) (h1 : key a < 2 ^ (1024 : ℤ))
    (h2 : -(2 ^ (1024 : ℤ)) < key a) : a.isFinite = true := by
  cases a with
  | nan => exact absurd rfl hn
  | inf s => cases s <;> simp [key] at h1 h2
  | fin s m e => rfl

theorem key_of_finite {a : Double} (hv : a.Valid) (hf : a.isFinite = true) :
    |key a| < 2 ^ (1024 : ℤ) := by
  cases a with
  | nan => simp [isFinite] at hf
  | inf s => simp [isFinite] at hf
  | fin s m e =>
    obtain ⟨h1, _, h3, _⟩ := hv
    have := mag_lt_top h1 h3
    have := mag_nonneg m e
    rw [key_fin, abs_lt]
    cases s <;> simp [sig] <;> constructor <;> linarith

theorem abs_sig_mul (s : Bool) (x : ℚ) : |sig s * x| = |x| := by
  cases s <;> simp [sig]

theorem small_consts : (2 : ℚ) ^ (-53 : ℤ) ≤ 1 / 1000 ∧ (2 : ℚ) ^ (-1075 : ℤ) ≤ 1 / 1000 := by
  have h : (2 : ℚ) ^ (-10 : ℤ) ≤ 1 / 1000 := by norm_num [zpow_neg]
  exact ⟨le_trans (two_zpow_le (by norm_num)) h, le_trans (two_zpow_le (by norm_num)) h⟩

/-- A finite rounded result is within a thousandth (relative plus absolute)
of the exact value. -/
theorem Rounds.err {v : ℚ} {a : Double} (h : Rounds v a) (hf : a.isFinite = true) :
    |key a - v| ≤ |v| / 1000 + 1 / 1000 := by
  obtain ⟨hv, _, s, M, E, hs, hk⟩ := h
  have hfin := key_of_finite hv hf
  rw [hk, key_roundNE, abs_sig_mul] at hfin
  have hr := rmag_nonneg M E
  have hT := two_zpow_pos 1024
  have hmin : min (rmag M E) (2 ^ (1024 : ℤ)) = rmag M E := by
    rcases le_total (rmag M E) (2 ^ (1024 : ℤ)) with h1 | h1
    · exact min_eq_left h1
    · rw [min_eq_right h1, abs_of_pos hT] at hfin
      exact absurd hfin (lt_irrefl _)
  rw [hk, key_roundNE, hmin, ← hs]
  unfold sval
  rw [← mul_sub, abs_sig_mul, abs_sig_mul, abs_of_nonneg (mag_nonneg M E)]
  have he := rmag_err M E
  obtain ⟨u1, u2⟩ := small_consts
  have h3 := mul_le_mul_of_nonneg_right u1 (mag_nonneg M E)
  calc |rmag M E - mag M E| ≤ 2 ^ (-53 : ℤ) * mag M E + 2 ^ (-1075 : ℤ) := he
    _ ≤ 1 / 1000 * mag M E + 1 / 1000 := add_le_add h3 u2
    _ = mag M E / 1000 + 1 / 1000 := by ring

/-! ### Keys of the source literals -/

theorem key_zero : key zero = 0 := by simp [zero, key, sgn]
theorem key_c2_00 : key c2_00 = 2 := by norm_num [c2_00, key, sgn, zpow_neg]
theorem key_c2_50 : key c2_50 = 5 / 2 := by norm_num [c2_50, key, sgn, zpow_neg]
theorem key_c1_50 : key c1_50 = 3 / 2 := by norm_num [c1_50, key, sgn, zpow_neg]
theorem key_c3_50 : key c3_50 = 7 / 2 := by norm_num [c3_50, key, sgn, zpow_neg]
theorem key_c5_00 : key c5_00 = 5 := by norm_num [c5_00, key, sgn, zpow_neg]
theorem key_c1_20 : key c1_20 = 5404319552844595 / 4503599627370496 := by
  norm_num [c1_20, key, sgn, zpow_neg]

theorem mag_ge_one_of_key {n : ℕ} {f : ℤ} {q : ℚ} (h : key (fin false n f) = q) (hq : 1 ≤ q) :
    1 ≤ mag n f := by
  rw [key_fin] at h
  simp [sig] at h
  rw [h]; exact hq

theorem mag_small_of_key {n : ℕ} {f : ℤ} {q : ℚ} (h : key (fin false n f) = q) (hq : q ≤ 8) :
    mag n f ≤ 2 ^ (969 : ℤ) := by
  rw [key_fin] at h
  simp [sig] at h
  rw [h]
  have : (2 : ℚ) ^ (3 : ℤ) ≤ 2 ^ (969 : ℤ) := two_zpow_le (by norm_num)
  have e : (2 : ℚ) ^ (3 : ℤ) = 8 := by norm_num
  linarith

theorem rounds_mul_c2_00 (d : Double) (hn : d ≠ nan) : Rounds (key d * 2) (mul d c2_00) := by
  have := rounds_mul d hn false (2 ^ 52) (-51) (mag_ge_one_of_key key_c2_00 (by norm_num))
  rwa [show key (fin false (2 ^ 52) (-51)) = 2 from key_c2_00] at this

theorem rounds_mul_c2_50 (d : Double) (hn : d ≠ nan) : Rounds (key d * (5 / 2)) (mul d c2_50) := by
  have := rounds_mul d hn false (5 * 2 ^ 50) (-51) (mag_ge_one_of_key key_c2_50 (by norm_num))
  rwa [show key (fin false (5 * 2 ^ 50) (-51)) = 5 / 2 from key_c2_50] at this

theorem rounds_mul_c3_50 (d : Double) (hn : d ≠ nan) : Rounds (key d * (7 / 2)) (mul d c3_50) := by
  have := rounds_mul d hn false (7 * 2 ^ 50) (-51) (mag_ge_one_of_key key_c3_50 (by norm_num))
  rwa [show key (fin false (7 * 2 ^ 50) (-51)) = 7 / 2 from key_c3_50] at this

theorem rounds_mul_c1_20 (d : Double) (hn : d ≠ nan) :
    Rounds (key d * (5404319552844595 / 4503599627370496)) (mul d c1_20) := by
  have := rounds_mul d hn false 5404319552844595 (-52)
    (mag_ge_one_of_key key_c1_20 (by norm_num))
  rwa [show key (fin false 5404319552844595 (-52)) = 5404319552844595 / 4503599627370496
    from key_c1_20] at this

theorem rounds_add_c1_50 (d : Double) (hn : d ≠ nan) : Rounds (key d + 3 / 2) (add d c1_50) := by
  have := rounds_add d hn false (3 * 2 ^ 51) (-52) (mag_small_of_key key_c1_50 (by norm_num))
  rwa [show key (fin false (3 * 2 ^ 51) (-52)) = 3 / 2 from key_c1_50] at this

theorem rounds_add_c5_00 (d : Double) (hn : d ≠ nan) : Rounds (key d + 5) (add d c5_00) := by
  have := rounds_add d hn false (5 * 2 ^ 50) (-50) (mag_small_of_key key_c5_00 (by norm_num))
  rwa [show key (fin false (5 * 2 ^ 50) (-50)) = 5 from key_c5_00] at this

/-! ### Ordering of the three fare formulas -/

theorem le_zero_iff {d : Double} (hv : d.Valid) (h : le zero d = true) :
    d ≠ nan ∧ 0 ≤ key d := by
  have hn : d ≠ nan := by
    rintro rfl
    simp [le, zero] at h
  refine ⟨hn, ?_⟩
  have := (le_iff_key (show zero.Valid by decide) hv (by simp [zero]) hn).1 h
  rwa [key_zero] at this

theorem key_nonneg_of_rounds {v : ℚ} {a : Double} (h : Rounds v a) (hv : 0 ≤ v) :
    0 ≤ key a := by
  have hz : Rounds (key zero) zero := rounds_self (by decide) (by simp [zero])
  have := hz.mono h (by rw [key_zero]; exact hv)
  rwa [key_zero] at this

/-- Premium chain: both cheaper fares are below the premium base fare, which
is at least 5 and not above the premium fare. -/
theorem premium_chain (d : Double) (hn : d ≠ nan) (h0 : 0 ≤ key d) :
    key (add (mul d c2_00) c1_50) ≤ key (add (mul d c3_50) c5_00) ∧
    key (mul d c2_50) ≤ key (add (mul d c3_50) c5_00) ∧
    key (add (mul d c3_50) c5_00) ≤ key (mul (add (mul d c3_50) c5_00) c1_20) ∧
    5 ≤ key (add (mul d c3_50) c5_00) := by
  have r2 := rounds_mul_c2_00 d hn
  have r3 := rounds_mul_c3_50 d hn
  have rB := rounds_mul_c2_50 d hn
  have rS := rounds_add_c1_50 _ r2.2.1
  have rA := rounds_add_c5_00 _ r3.2.1
  have rP := rounds_mul_c1_20 _ rA.2.1
  have k23 : key (mul d c2_00) ≤ key (mul d c3_50) := r2.mono r3 (by linarith)
  have kB3 : key (mul d c2_50) ≤ key (mul d c3_50) := rB.mono r3 (by linarith)
  have k3 : 0 ≤ key (mul d c3_50) := key_nonneg_of_rounds r3 (by linarith)
  have kA5 : 5 ≤ key (add (mul d c3_50) c5_00) := by
    have h5 : Rounds (key c5_00) c5_00 := rounds_self (by decide) (by simp [c5_00])
    have := h5.mono rA (by rw [key_c5_00]; linarith)
    rwa [key_c5_00] at this
  refine ⟨rS.mono rA (by linarith), ?_, ?_, kA5⟩
  · exact (rounds_self rB.1 rB.2.1).mono rA (by linarith)
  · exact (rounds_self rA.1 rA.2.1).mono rP (by linarith)

theorem premium_ge (d : Double) (hn : d ≠ nan) (h0 : 0 ≤ key d) :
    key (add (mul d c2_00) c1_50) ≤ key (mul (add (mul d c3_50) c5_00) c1_20) ∧
    key (mul d c2_50) ≤ key (mul (add (mul d c3_50) c5_00) c1_20) := by
  obtain ⟨h1, h2, h3, _⟩ := premium_chain d hn h0
  exact ⟨h1.trans h3, h2.trans h3⟩

theorem premium_gt (d : Double) (hn : d ≠ nan) (h0 : 0 ≤ key d)
    (hf : (mul (add (mul d c3_50) c5_00) c1_20).isFinite = true) :
    key (add (mul d c2_00) c1_50) < key (mul (add (mul d c3_50) c5_00) c1_20) ∧
    key (mul d c2_50) < key (mul (add (mul d c3_50) c5_00) c1_20) := by
  have r2 := rounds_mul_c2_00 d hn
  have r3 := rounds_mul_c3_50 d hn
  have rB := rounds_mul_c2_50 d hn
  have rS := rounds_add_c1_50 _ r2.2.1
  have rA := rounds_add_c5_00 _ r3.2.1
  have rP := rounds_mul_c1_20 _ rA.2.1
  obtain ⟨hSA, hBA, hAP, hA5⟩ := premium_chain d hn h0
  have hT := two_zpow_pos 1024
  have hPT : key (mul (add (mul d c3_50) c5_00) c1_20) < 2 ^ (1024 : ℤ) :=
    (abs_lt.1 (key_of_finite rP.1 hf)).2
  have k2 : 0 ≤ key (mul d c2_00) := key_nonneg_of_rounds r2 (by linarith)
  have k3 : 0 ≤ key (mul d c3_50) := key_nonneg_of_rounds r3 (by linarith)
  have kB : 0 ≤ key (mul d c2_50) := key_nonneg_of_rounds rB (by linarith)
  have kS : 0 ≤ key (add (mul d c2_00) c1_50) := key_nonneg_of_rounds rS (by linarith)
  have k2S : key (mul d c2_00) ≤ key (add (mul d c2_00) c1_50) :=
    (rounds_self r2.1 r2.2.1).mono rS (by linarith)
  have k3A : key (mul d c3_50) ≤ key (add (mul d c3_50) c5_00) :=
    (rounds_self r3.1 r3.2.1).mono rA (by linarith)
  have f2 := finite_of_key r2.2.1 (by linarith) (by linarith)
  have f3 := finite_of_key r3.2.1 (by linarith) (by linarith)
  have fB := finite_of_key rB.2.1 (by linarith) (by linarith)
  have fS := finite_of_key rS.2.1 (by linarith) (by linarith)
  have fA := finite_of_key rA.2.1 (by linarith) (by linarith)
  have e2 := abs_le.1 (r2.err f2)
  have e3 := abs_le.1 (r3.err f3)
  have eB := abs_le.1 (rB.err fB)
  have eS := abs_le.1 (rS.err fS)
  have eA := abs_le.1 (rA.err fA)
  have eP := abs_le.1 (rP.err hf)
  rw [abs_of_nonneg (by linarith : (0 : ℚ) ≤ key d * 2)] at e2
  rw [abs_of_nonneg (by linarith : (0 : ℚ) ≤ key d * (7 / 2))] at e3
  rw [abs_of_nonneg (by linarith : (0 : ℚ) ≤ key d * (5 / 2))] at eB
  rw [abs_of_nonneg (by linarith : (0 : ℚ) ≤ key (mul d c2_00) + 3 / 2)] at eS
  rw [abs_of_nonneg (by linarith : (0 : ℚ) ≤ key (mul d c3_50) + 5)] at eA
  rw [abs_of_nonneg (by nlinarith :
    (0 : ℚ) ≤ key (add (mul d c3_50) c5_00) * (5404319552844595 / 4503599627370496))] at eP
  constructor <;> linarith [e2.1, e2.2, e3.1, e3.2, eB.1, eB.2, eS.1, eS.2, eA.1, eA.2, eP.1, eP.2]

/-! ### Standard against base: the crossover at three miles -/

/-- Doubling a canonical double is exact below the overflow threshold. -/
theorem double_exact (s : Bool) (m : ℕ) (e : ℤ) (hv : (fin s m e).Valid)
    (h : e ≤ 970 ∨ m < 2 ^ 52) :
    key (mul (fin s m e) c2_00) = key (fin s m e) * 2 := by
  have hr := rounds_mul_c2_00 (fin s m e) (by simp)
  obtain ⟨h1, h2, h3, h4⟩ := hv
  by_cases hm : m < 2 ^ 52
  · have he : e = -1074 := by
      rcases h4 with h4 | h4
      · exact h4
      · omega
    refine hr.exact (b := fin s (2 * m) e) ⟨by omega, h2, h3, Or.inl he⟩ (by simp) ?_
    rw [key_fin, key_fin]
    unfold mag
    push_cast
    ring
  · have he : e ≤ 970 := by
      rcases h with h | h
      · exact h
      · exact absurd h hm
    refine hr.exact (b := fin s m (e + 1)) ⟨h1, by omega, by omega, Or.inr (by omega)⟩ (by simp) ?_
    rw [key_fin, key_fin]
    unfold mag
    rw [two_zpow_add]
    norm_num
    ring

theorem mag_huge {m : ℕ} (hm : 2 ^ 52 ≤ m) : (2 : ℚ) ^ (1023 : ℤ) ≤ mag m 971 := by
  have h : ((2 ^ 52 : ℕ) : ℚ) ≤ (m : ℚ) := Nat.cast_le.2 hm
  have e : ((2 ^ 52 : ℕ) : ℚ) = 2 ^ (52 : ℤ) := by norm_num
  rw [e] at h
  unfold mag
  calc (2 : ℚ) ^ (1023 : ℤ) = 2 ^ (52 : ℤ) * 2 ^ (971 : ℤ) := by
        rw [← two_zpow_add]; norm_num
    _ ≤ (m : ℚ) * 2 ^ (971 : ℤ) := mul_le_mul_of_nonneg_right h (two_zpow_pos _).le

theorem top_eq : (2 : ℚ) ^ (1024 : ℤ) = 2 * 2 ^ (1023 : ℤ) := by
  have : (2 : ℚ) ^ (1024 : ℤ) = 2 ^ (1 : ℤ) * 2 ^ (1023 : ℤ) := by
    rw [← two_zpow_add]; norm_num
  rw [this]; norm_num

theorem four_le_top : (4 : ℚ) ≤ 2 ^ (1023 : ℤ) := by
  have : (2 : ℚ) ^ (2 : ℤ) ≤ 2 ^ (1023 : ℤ) := two_zpow_le (by norm_num)
  have e : (2 : ℚ) ^ (2 : ℤ) = 4 := by norm_num
  linarith

theorem key_inf_true : key (inf true) = -(2 ^ (1024 : ℤ)) := rfl

theorem key_inf_false : key (inf false) = 2 ^ (1024 : ℤ) := rfl

/-- Up to three miles the standard fare is not below the base fare. -/
theorem std_ge_base (d : Double) (hv : d.Valid) (hn : d ≠ nan) (h3 : key d ≤ 3) :
    key (mul d c2_50) ≤ key (add (mul d c2_00) c1_50) := by
  have r2 := rounds_mul_c2_00 d hn
  have rB := rounds_mul_c2_50 d hn
  have rS := rounds_add_c1_50 _ r2.2.1
  have hT := top_eq
  have h4 := four_le_top
  cases d with
  | nan => exact absurd rfl hn
  | inf s =>
    cases s
    · rw [key_inf_false] at h3
      linarith
    · exact le_of_eq rfl
  | fin s m e =>
    by_cases hs : e ≤ 970 ∨ m < 2 ^ 52
    · have hk := double_exact s m e hv hs
      exact rB.mono rS (by rw [hk]; linarith)
    · push_neg at hs
      obtain ⟨h1, h2, h5, h6⟩ := hv
      have he : e = 971 := by omega
      subst he
      have hm := mag_huge hs.2
      have hkd : key (fin s m 971) ≤ -(2 ^ (1023 : ℤ)) := by
        rw [key_fin] at h3 ⊢
        cases s
        · simp only [sig, Bool.false_eq_true, if_false, one_mul] at h3
          linarith
        · simp only [sig, if_true]
          linarith
      have hb : Rounds (key (inf true)) (inf true) := rounds_self trivial (by simp)
      have h7 : key (mul (fin s m 971) c2_50) ≤ key (inf true) :=
        rB.mono hb (by rw [key_inf_true]; linarith)
      have h8 := key_ge_bot rS.1
      rw [key_inf_true] at h7
      linarith

/-- From three miles on the standard fare is not above the base fare. -/
theorem std_le_base (d : Double) (hv : d.Valid) (hn : d ≠ nan) (h3 : 3 ≤ key d) :
    key (add (mul d c2_00) c1_50) ≤ key (mul d c2_50) := by
  have r2 := rounds_mul_c2_00 d hn
  have rB := rounds_mul_c2_50 d hn
  have rS := rounds_add_c1_50 _ r2.2.1
  have hT := top_eq
  have h4 := four_le_top
  cases d with
  | nan => exact absurd rfl hn
  | inf s =>
    cases s
    · exact le_of_eq rfl
    · rw [key_inf_true] at h3
      linarith
  | fin s m e =>
    by_cases hs : e ≤ 970 ∨ m < 2 ^ 52
    · have hk := double_exact s m e hv hs
      exact rS.mono rB (by rw [hk]; linarith)
    · push_neg at hs
      obtain ⟨h1, h2, h5, h6⟩ := hv
      have he : e = 971 := by omega
      subst he
      have hm := mag_huge hs.2
      have hkd : 2 ^ (1023 : ℤ) ≤ key (fin s m 971) := by
        rw [key_fin] at h3 ⊢
        cases s
        · simp only [sig, Bool.false_eq_true, if_false, one_mul]
          linarith
        · simp only [sig, if_true] at h3
          linarith
      have hb : Rounds (key (inf false)) (inf false) := rounds_self trivial (by simp)
      have h7 : key (inf false) ≤ key (mul (fin s m 971) c2_50) :=
        hb.mono rB (by rw [key_inf_false]; linarith)
      have h8 := key_le_top rS.1
      rw [key_inf_false] at h7
      linarith

/-! ### Exact accumulation -/

theorem rounds_add_fin (s : Bool) (m : ℕ) (e : ℤ) (t : Bool) (n : ℕ) (f : ℤ) :
    Rounds (key (fin s m e) + key (fin t n f)) (add (fin s m e) (fin t n f)) := by
  refine ⟨add_valid _ _, ?_, _, _, _, ?_, key_add_fin s m e t n f⟩
  · simp only [add]
    split
    · simp
    · exact roundNE_ne_nan _ _ _
  · rw [align_sum, key_fin, key_fin]

/-- Whole multiples of `2^k` below `2^(53+k)` are doubles. -/
theorem representable (k : ℤ) (hk1 : -1074 ≤ k) (hk2 : k ≤ 970) (w : ℤ)
    (hw : |w| < 2 ^ 53) :
    ∃ b : Double, b.Valid ∧ b ≠ nan ∧ key b = (w : ℚ) * 2 ^ k := by
  refine ⟨roundNE (decide (w < 0)) w.natAbs k, roundNE_valid _ _ _, roundNE_ne_nan _ _ _, ?_⟩
  have hn : w.natAbs < 2 ^ 53 := by
    have : ((w.natAbs : ℕ) : ℤ) = |w| := Int.natCast_natAbs w
    omega
  have hsz : Nat.size w.natAbs ≤ 53 := Nat.size_le.2 hn
  have ht : ulpExp w.natAbs k ≤ k := by
    rw [ulpExp_eq]
    exact max_le (by omega) hk1
  rw [key_roundNE, rmag_exact_of_le _ _ ht, min_eq_left (mag_lt_top hn (by omega)).le]
  unfold mag
  rw [← mul_assoc, sig_natAbs]

theorem fin_of_isFinite {a : Double} (h : a.isFinite = true) : ∃ s m e, a = fin s m e := by
  cases a with
  | nan => simp [isFinite] at h
  | inf s => simp [isFinite] at h
  | fin s m e => exact ⟨s, m, e, rfl⟩

theorem sig_ne_zero (s : Bool) : sig s ≠ 0 := by cases s <;> simp [sig]

theorem key_add_zero_sign (s : Bool) (m : ℕ) (e : ℤ) (t : Bool) (n : ℕ) (f : ℤ)
    (hz : key (fin s m e) = 0 → s = false)
    (h0 : key (fin s m e) + key (fin t n f) = 0) :
    add (fin s m e) (fin t n f) = zero := by
  have hs := align_sum s m e t n f
  rw [← key_fin, ← key_fin, h0] at hs
  have hz0 : sgn s (m * 2 ^ (e - min e f).toNat) + sgn t (n * 2 ^ (f - min e f).toNat) = 0 := by
    unfold sval at hs
    rcases mul_eq_zero.1 hs with h | h
    · exact absurd h (sig_ne_zero _)
    · exact Int.natAbs_eq_zero.1 (mag_eq_zero h)
  simp only [add, hz0, if_true, zero]
  congr 1
  cases s
  · rfl
  · cases t
    · rfl
    · exfalso
      have p1 := mag_nonneg m e
      have p2 := mag_nonneg n f
      rw [key_fin, key_fin] at h0
      simp only [sig, if_true] at h0
      have : key (fin true m e) = 0 := by
        rw [key_fin]
        simp only [sig, if_true]
        linarith
      exact absurd (hz this) (by simp)

/-- When every fare is a whole multiple of `2^k` and the magnitudes stay below
`2^(53+k)`, the accumulation loop never rounds. -/
theorem foldl_add_exact (k : ℤ) (hk1 : -1074 ≤ k) (hk2 : k ≤ 970) :
    ∀ (fs : List Double) (acc : Double), acc.Valid → acc.isFinite = true →
      (key acc = 0 → acc = zero) → (∃ Z : ℤ, key acc = (Z : ℚ) * 2 ^ k) →
      (∀ x ∈ fs, x.isFinite = true ∧ ∃ z : ℤ, key x = (z : ℚ) * 2 ^ k) →
      |key acc| + (fs.map (fun x => |key x|)).sum < 2 ^ (53 + k) →
      (fs.foldl add acc).Valid ∧ (fs.foldl add acc).isFinite = true ∧
      (key (fs.foldl add acc) = 0 → fs.foldl add acc = zero) ∧
      key (fs.foldl add acc) = key acc + (fs.map key).sum := by
  intro fs
  induction fs with
  | nil =>
    intro acc hv hf hz _ _ _
    simpa using ⟨hv, hf, hz⟩
  | cons x xs ih =>
    intro acc hv hf hz hZ hall hsum
    obtain ⟨Z, hZ⟩ := hZ
    obtain ⟨hxf, z, hz'⟩ := hall x (List.mem_cons_self _ _)
    obtain ⟨s, m, e, rfl⟩ := fin_of_isFinite hf
    obtain ⟨t, n, f, rfl⟩ := fin_of_isFinite hxf
    simp only [List.map_cons, List.sum_cons] at hsum
    have hrest : 0 ≤ (xs.map (fun x => |key x|)).sum :=
      List.sum_nonneg (by intro y hy; obtain ⟨w, _, rfl⟩ := List.mem_map.1 hy; exact abs_nonneg _)
    have hp := two_zpow_pos k
    have hv' : key (fin s m e) + key (fin t n f) = ((Z + z : ℤ) : ℚ) * 2 ^ k := by
      rw [hZ, hz']; push_cast; ring
    have habs : |key (fin s m e) + key (fin t n f)| < 2 ^ (53 + k) := by
      have := abs_add (key (fin s m e)) (key (fin t n f))
      linarith
    have hw : |Z + z| < 2 ^ 53 := by
      rw [hv', abs_mul, abs_of_pos hp, two_zpow_add] at habs
      have h1 : |((Z + z : ℤ) : ℚ)| < 2 ^ (53 : ℤ) := lt_of_mul_lt_mul_right habs hp.le
      have h2 : ((|Z + z| : ℤ) : ℚ) < ((2 ^ 53 : ℤ) : ℚ) := by
        rw [Int.cast_abs]
        have e : (((2 : ℤ) ^ 53 : ℤ) : ℚ) = 2 ^ (53 : ℤ) := by norm_num
        rw [e]
        exact h1
      exact_mod_cast h2
    obtain ⟨b, hbv, hbn, hbk⟩ := representable k hk1 hk2 (Z + z) hw
    have hr := rounds_add_fin s m e t n f
    have hkey : key (add (fin s m e) (fin t n f)) = key (fin s m e) + key (fin t n f) :=
      hr.exact hbv hbn (by rw [hbk, hv'])
    have hT : (2 : ℚ) ^ (53 + k) ≤ 2 ^ (1023 : ℤ) := two_zpow_le (by omega)
    have hT2 : (2 : ℚ) ^ (1023 : ℤ) < 2 ^ (1024 : ℤ) := two_zpow_lt (by norm_num)
    have hfin : (add (fin s m e) (fin t n f)).isFinite = true := by
      have := abs_lt.1 habs
      apply finite_of_key hr.2.1 <;> rw [hkey] <;> linarith
    have hzero : key (add (fin s m e) (fin t n f)) = 0 → add (fin s m e) (fin t n f) = zero := by
      intro h0
      rw [hkey] at h0
      apply key_add_zero_sign s m e t n f _ h0
      intro hk0
      have := hz hk0
      simp only [zero, fin.injEq] at this
      exact this.1
    have := ih (add (fin s m e) (fin t n f)) hr.1 hfin hzero ⟨Z + z, by rw [hkey, hv']⟩
      (fun y hy => hall y (List.mem_cons_of_mem _ hy))
      (by
        rw [hkey]
        have := abs_add (key (fin s m e)) (key (fin t n f))
        linarith)
    simp only [List.foldl_cons, List.map_cons, List.sum_cons]
    refine ⟨this.1, this.2.1, this.2.2.1, ?_⟩
    rw [this.2.2.2, hkey]
    ring

/-- Canonical finite doubles with the same value and sign bit coincide. -/
theorem fin_eq_of_key (s : Bool) (m : ℕ) (e : ℤ) (n : ℕ) (f : ℤ)
    (hv : (fin s m e).Valid) (hw : (fin s n f).Valid)
    (h : key (fin s m e) = key (fin s n f)) : fin s m e = fin s n f := by
  obtain ⟨a1, a2, a3, a4⟩ := hv
  obtain ⟨b1, b2, b3, b4⟩ := hw
  have hm : mag m e = mag n f := by
    rw [key_fin, key_fin] at h
    cases s <;> simp [sig] at h <;> exact h
  have key_lt : ∀ (m n : ℕ) (e f : ℤ), m < 2 ^ 53 → 2 ^ 52 ≤ n → e < f → mag m e < mag n f := by
    intro m n e f h1 h2 h3
    have c1 : (m : ℚ) < 2 ^ (53 : ℤ) := by
      have : ((m : ℕ) : ℚ) < ((2 ^ 53 : ℕ) : ℚ) := Nat.cast_lt.2 h1
      have e : ((2 ^ 53 : ℕ) : ℚ) = 2 ^ (53 : ℤ) := by norm_num
      rwa [e] at this
    have c2 : (2 : ℚ) ^ (52 : ℤ) ≤ (n : ℚ) := by
      have : ((2 ^ 52 : ℕ) : ℚ) ≤ ((n : ℕ) : ℚ) := Nat.cast_le.2 h2
      have e : ((2 ^ 52 : ℕ) : ℚ) = 2 ^ (52 : ℤ) := by norm_num
      rwa [e] at this
    unfold mag
    calc (m : ℚ) * 2 ^ e < 2 ^ (53 : ℤ) * 2 ^ e := mul_lt_mul_of_pos_right c1 (two_zpow_pos _)
      _ = 2 ^ (53 + e) := (two_zpow_add _ _).symm
      _ ≤ 2 ^ (52 + f) := two_zpow_le (by omega)
      _ = 2 ^ (52 : ℤ) * 2 ^ f := two_zpow_add _ _
      _ ≤ (n : ℚ) * 2 ^ f := mul_le_mul_of_nonneg_right c2 (two_zpow_pos _).le
  have hef : e = f := by
    rcases lt_trichotomy e f with h1 | h1 | h1
    · have hn : 2 ^ 52 ≤ n := by
        rcases b4 with b4 | b4
        · omega
        · exact b4
      have := key_lt m n e f a1 hn h1
      linarith
    · exact h1
    · have hn : 2 ^ 52 ≤ m := by
        rcases a4 with a4 | a4
        · omega
        · exact a4
      have := key_lt n m f e b1 hn h1
      linarith
  subst hef
  have : (m : ℚ) = n := by
    unfold mag at hm
    exact mul_right_cancel₀ (two_zpow_pos e).ne' hm
  have hmn : m = n := by exact_mod_cast this
  rw [hmn]

/-- Canonical finite doubles with the same value, positive zero being the
only zero among them, coincide. -/
theorem eq_of_key_eq {a b : Double} (ha : a.Valid) (hb : b.Valid)
    (hfa : a.isFinite = true) (hfb : b.isFinite = true)
    (hza : key a = 0 → a = zero) (hzb : key b = 0 → b = zero) (h : key a = key b) : a = b := by
  by_cases h0 : key a = 0
  · rw [hza h0, hzb (h ▸ h0)]
  · obtain ⟨s, m, e, rfl⟩ := fin_of_isFinite hfa
    obtain ⟨t, n, f, rfl⟩ := fin_of_isFinite hfb
    have hst : s = t := by
      have p1 := mag_nonneg m e
      have p2 := mag_nonneg n f
      rw [key_fin] at h0
      rw [key_fin, key_fin] at h
      cases s <;> cases t <;> simp [sig] at h h0 ⊢ <;>
        (exfalso; apply h0; linarith)
    subst hst
    exact fin_eq_of_key s m e n f ha hb h

end Double

/-! ## Basic facts -/

theorem Driver.addRides_assignedRides (d : Driver) (rides : List RidePtr) :
    (d.addRides rides).assignedRides = d.assignedRides ++ rides := by
  induction rides generalizing d with
  | nil => simp [Driver.addRides]
  | cons r rs ih =>
    have h := ih (d.addRide r).1
    simp only [Driver.addRides, List.foldl_cons] at h ⊢
    rw [h]
    simp [Driver.addRide]

theorem Rider.requestRides_requestedRides (r : Rider) (rides : List RidePtr) :
    (r.requestRides rides).requestedRides = r.requestedRides ++ rides := by
  induction rides generalizing r with
  | nil => simp [Rider.requestRides]
  | cons x xs ih =>
    have h := ih (r.requestRide x).1
    simp only [Rider.requestRides, List.foldl_cons] at h ⊢
    rw [h]
    simp [Rider.requestRide]

theorem Driver.addRides_name (d : Driver) (rides : List RidePtr) :
    (d.addRides rides).name = d.name := by
  induction rides generalizing d with
  | nil => simp [Driver.addRides]
  | cons r rs ih =>
    have h := ih (d.addRide r).1
    simp only [Driver.addRides, List.foldl_cons] at h ⊢
    rw [h]
    simp [Driver.addRide]

theorem Rider.requestRides_name (r : Rider) (rides : List RidePtr) :
    (r.requestRides rides).name = r.name := by
  induction rides generalizing r with
  | nil => simp [Rider.requestRides]
  | cons x xs ih =>
    have h := ih (r.requestRide x).1
    simp only [Rider.requestRides, List.foldl_cons] at h ⊢
    rw [h]
    simp [Rider.requestRide]

/-- The printing loop emits one line per ride, in order. -/
theorem foldl_lines (f : RidePtr → String) (rides : List RidePtr) (acc : List String) :
    rides.foldl (fun out ride => out ++ [f ride]) acc = acc ++ rides.map f := by
  induction rides generalizing acc with
  | nil => simp
  | cons r rs ih => simp [ih]

/-- The accumulation loop is the left-to-right sum of the fares. -/
theorem foldl_fares (rides : List RidePtr) (acc : Double) :
    rides.foldl (fun total ride => total.add ride.fare) acc
      = (rides.map RidePtr.fare).foldl add acc := by
  induction rides generalizing acc with
  | nil => simp
  | cons r rs ih => simp [ih]

/-! ## Fares as rounded values -/

theorem le_true_ne_nan {a b : Double} (h : Double.le a b = true) : a ≠ nan ∧ b ≠ nan := by
  cases a <;> cases b <;> simp [Double.le] at h ⊢

theorem ofNat_3 : ofNat 3 = fin false (3 * 2 ^ 51) (-51) := by decide

theorem key_ofNat_3 : key (ofNat 3) = 3 := by
  rw [ofNat_3]
  norm_num [key, sgn, zpow_neg]

/-- The three fares of a non-NaN distance are canonical and not NaN. -/
theorem fares_canonical (d : Double) (hn : d ≠ nan) :
    ((mul d c2_50).Valid ∧ mul d c2_50 ≠ nan) ∧
    ((add (mul d c2_00) c1_50).Valid ∧ add (mul d c2_00) c1_50 ≠ nan) ∧
    ((mul (add (mul d c3_50) c5_00) c1_20).Valid ∧
      mul (add (mul d c3_50) c5_00) c1_20 ≠ nan) := by
  have r2 := rounds_mul_c2_00 d hn
  have r3 := rounds_mul_c3_50 d hn
  have rB := rounds_mul_c2_50 d hn
  have rS := rounds_add_c1_50 _ r2.2.1
  have rA := rounds_add_c5_00 _ r3.2.1
  have rP := rounds_mul_c1_20 _ rA.2.1
  exact ⟨⟨rB.1, rB.2.1⟩, ⟨rS.1, rS.2.1⟩, ⟨rP.1, rP.2.1⟩⟩

/-- For a non-negative distance the premium fare is not below the other two. -/
theorem premium_le (d : Double) (hv : d.Valid) (h0 : Double.le zero d = true) :
    Double.le (add (mul d c2_00) c1_50) (mul (add (mul d c3_50) c5_00) c1_20) = true ∧
    Double.le (mul d c2_50) (mul (add (mul d c3_50) c5_00) c1_20) = true := by
  obtain ⟨hn, hk⟩ := le_zero_iff hv h0
  obtain ⟨⟨vB, nB⟩, ⟨vS, nS⟩, ⟨vP, nP⟩⟩ := fares_canonical d hn
  obtain ⟨h1, h2⟩ := premium_ge d hn hk
  exact ⟨(le_iff_key vS vP nS nP).2 h1, (le_iff_key vB vP nB nP).2 h2⟩

/-- For a non-negative distance a finite premium fare is above the other two. -/
theorem premium_lt (d : Double) (hv : d.Valid) (h0 : Double.le zero d = true)
    (hf : (mul (add (mul d c3_50) c5_00) c1_20).isFinite = true) :
    Double.lt (add (mul d c2_00) c1_50) (mul (add (mul d c3_50) c5_00) c1_20) = true ∧
    Double.lt (mul d c2_50) (mul (add (mul d c3_50) c5_00) c1_20) = true := by
  obtain ⟨hn, hk⟩ := le_zero_iff hv h0
  obtain ⟨⟨vB, nB⟩, ⟨vS, nS⟩, ⟨vP, nP⟩⟩ := fares_canonical d hn
  obtain ⟨h1, h2⟩ := premium_gt d hn hk hf
  exact ⟨(lt_iff_key vS vP nS nP).2 h1, (lt_iff_key vB vP nB nP).2 h2⟩

/-- Up to three miles the base fare is not above the standard fare. -/
theorem base_le_standard (d : Double) (hv : d.Valid) (h3 : Double.le d (ofNat 3) = true) :
    Double.le (mul d c2_50) (add (mul d c2_00) c1_50) = true := by
  obtain ⟨hn, _⟩ := le_true_ne_nan h3
  obtain ⟨⟨vB, nB⟩, ⟨vS, nS⟩, _⟩ := fares_canonical d hn
  have hk := (le_iff_key hv (by decide) hn (by decide)).1 h3
  rw [key_ofNat_3] at hk
  exact (le_iff_key vB vS nB nS).2 (std_ge_base d hv hn hk)

/-- From three miles on the standard fare is not above the base fare. -/
theorem standard_le_base (d : Double) (hv : d.Valid) (h3 : Double.le (ofNat 3) d = true) :
    Double.le (add (mul d c2_00) c1_50) (mul d c2_50) = true := by
  obtain ⟨_, hn⟩ := le_true_ne_nan h3
  obtain ⟨⟨vB, nB⟩, ⟨vS, nS⟩, _⟩ := fares_canonical d hn
  have hk := (le_iff_key (by decide) hv (by decide) hn).1 h3
  rw [key_ofNat_3] at hk
  exact (le_iff_key vS vB nS nB).2 (std_le_base d hv hn hk)

namespace Double

/-- From 3.125 miles on a finite standard fare is strictly below the base fare. -/
theorem std_lt_base (d : Double) (hn : d ≠ nan) (h3 : 25 / 8 ≤ key d)
    (hf : (add (mul d c2_00) c1_50).isFinite = true) :
    key (add (mul d c2_00) c1_50) < key (mul d c2_50) := by
  have r2 := rounds_mul_c2_00 d hn
  have rB := rounds_mul_c2_50 d hn
  have rS := rounds_add_c1_50 _ r2.2.1
  have hT := two_zpow_pos 1024
  have hST : key (add (mul d c2_00) c1_50) < 2 ^ (1024 : ℤ) :=
    (abs_lt.1 (key_of_finite rS.1 hf)).2
  have k2 : 0 ≤ key (mul d c2_00) := key_nonneg_of_rounds r2 (by linarith)
  have kB : 0 ≤ key (mul d c2_50) := key_nonneg_of_rounds rB (by linarith)
  have k2S : key (mul d c2_00) ≤ key (add (mul d c2_00) c1_50) :=
    (rounds_self r2.1 r2.2.1).mono rS (by linarith)
  have f2 := finite_of_key r2.2.1 (by linarith) (by linarith)
  have e2 := abs_le.1 (r2.err f2)
  have eS := abs_le.1 (rS.err hf)
  rw [abs_of_nonneg (by linarith : (0 : ℚ) ≤ key d * 2)] at e2
  rw [abs_of_nonneg (by linarith : (0 : ℚ) ≤ key (mul d c2_00) + 3 / 2)] at eS
  by_cases hfB : (mul d c2_50).isFinite = true
  · have eB := abs_le.1 (rB.err hfB)
    rw [abs_of_nonneg (by linarith : (0 : ℚ) ≤ key d * (5 / 2))] at eB
    linarith [e2.1, e2.2, eS.1, eS.2, eB.1, eB.2]
  · have : ¬ key (mul d c2_50) < 2 ^ (1024 : ℤ) := by
      intro hlt
      exact hfB (finite_of_key rB.2.1 hlt (by linarith))
    linarith

/-- A rounded result of magnitude below 8 is within `2^-51` of the exact value. -/
theorem Rounds.err_small {v : ℚ} {a : Double} (h : Rounds v a) (hv : |v| < 8) :
    |key a - v| ≤ 2 ^ (-51 : ℤ) := by
  obtain ⟨_, _, s, M, E, hs, hk⟩ := h
  have hmag : mag M E < 8 := by
    rw [← hs] at hv
    unfold sval at hv
    rwa [abs_sig_mul, abs_of_nonneg (mag_nonneg M E)] at hv
  have hp := two_zpow_pos (-51)
  have hp1 : (2 : ℚ) ^ (-51 : ℤ) ≤ 1 := by
    have := two_zpow_le (show (-51 : ℤ) ≤ 0 by norm_num)
    simpa using this
  have hT : (16 : ℚ) ≤ 2 ^ (1024 : ℤ) := by
    have : (2 : ℚ) ^ (4 : ℤ) ≤ 2 ^ (1024 : ℤ) := two_zpow_le (by norm_num)
    have e : (2 : ℚ) ^ (4 : ℤ) = 16 := by norm_num
    linarith
  have herr : |rmag M E - mag M E| ≤ 2 ^ (-51 : ℤ) := by
    rcases Nat.eq_zero_or_pos M with h0 | hpos
    · subst h0
      rw [rmag_zero]
      simp only [mag, Nat.cast_zero, zero_mul, sub_zero, abs_zero]
      exact hp.le
    · have hM : M ≠ 0 := by omega
      obtain ⟨l1, _⟩ := mag_bounds hM E
      have h8 : (2 : ℚ) ^ ((Nat.size M : ℤ) - 1 + E) < 2 ^ (3 : ℤ) := by
        have e : (2 : ℚ) ^ (3 : ℤ) = 8 := by norm_num
        rw [e]
        linarith
      have hsz := (zpow_lt_zpow_iff_right₀ (by norm_num : (1 : ℚ) < 2)).1 h8
      have hu : ulpExp M E ≤ -50 := by
        rw [ulpExp_eq]
        exact max_le (by omega) (by norm_num)
      refine le_trans (rmag_err_ulp M E) ?_
      have h1 : (2 : ℚ) ^ ulpExp M E ≤ 2 ^ (-50 : ℤ) := two_zpow_le hu
      have h2 : (2 : ℚ) ^ (-50 : ℤ) = 2 * 2 ^ (-51 : ℤ) := by
        have : (2 : ℚ) ^ (-50 : ℤ) = 2 ^ (1 : ℤ) * 2 ^ (-51 : ℤ) := by
          rw [← two_zpow_add]; norm_num
        rw [this]; norm_num
      rw [h2] at h1
      revert h1
      generalize (2 : ℚ) ^ (-51 : ℤ) = p
      generalize (2 : ℚ) ^ ulpExp M E = q
      intro h1
      linarith
  have hmin : min (rmag M E) (2 ^ (1024 : ℤ)) = rmag M E := by
    apply min_eq_left
    have := (abs_le.1 herr).2
    linarith
  rw [hk, key_roundNE, hmin, ← hs]
  unfold sval
  rw [← mul_sub, abs_sig_mul]
  exact herr

/-- Canonical doubles from 2 upwards are whole multiples of `2^-51`. -/
theorem key_grid (s : Bool) (m : ℕ) (e : ℤ) (hv : (fin s m e).Valid)
    (h2 : 2 ≤ key (fin s m e)) :
    ∃ K : ℤ, key (fin s m e) = (K : ℚ) * 2 ^ (-51 : ℤ) := by
  obtain ⟨h1, _, _, _⟩ := hv
  have hnn := mag_nonneg m e
  have hs : s = false := by
    cases s
    · rfl
    · rw [key_fin] at h2
      simp only [sig, if_true] at h2
      linarith
  subst hs
  have hk : key (fin false m e) = mag m e := by
    rw [key_fin]; simp [sig]
  have he : -51 ≤ e := by
    by_contra hc
    push_neg at hc
    have hm : (m : ℚ) < 2 ^ (53 : ℤ) := by
      have : ((m : ℕ) : ℚ) < ((2 ^ 53 : ℕ) : ℚ) := Nat.cast_lt.2 h1
      have e : ((2 ^ 53 : ℕ) : ℚ) = 2 ^ (53 : ℤ) := by norm_num
      rwa [e] at this
    have : mag m e < 2 := by
      unfold mag
      calc (m : ℚ) * 2 ^ e < 2 ^ (53 : ℤ) * 2 ^ e :=
            mul_lt_mul_of_pos_right hm (two_zpow_pos _)
        _ = 2 ^ (53 + e) := (two_zpow_add _ _).symm
        _ ≤ 2 ^ (1 : ℤ) := two_zpow_le (by omega)
        _ = 2 := by norm_num
    rw [hk] at h2
    linarith
  refine ⟨((m * 2 ^ (e + 51).toNat : ℕ) : ℤ), ?_⟩
  rw [hk]
  unfold mag
  rw [Int.cast_natCast, Nat.cast_mul, cast_two_pow_toNat _ (by omega), mul_assoc,
    ← two_zpow_add]
  congr 2
  ring

theorem pow51 : (2 : ℚ) ^ (-51 : ℤ) * 2 ^ 51 = 1 := by norm_num [zpow_neg]

/-- Between 3 + 3 * 2^-51 and 3.125 miles the standard fare is exact and the
base fare rounds to a strictly larger double. -/
theorem std_lt_base_near (d : Double) (hv : d.Valid) (hn : d ≠ nan)
    (h1 : 3 + 3 * 2 ^ (-51 : ℤ) ≤ key d) (h2 : key d < 25 / 8) :
    key (add (mul d c2_00) c1_50) < key (mul d c2_50) := by
  have r2 := rounds_mul_c2_00 d hn
  have rB := rounds_mul_c2_50 d hn
  have rS := rounds_add_c1_50 _ r2.2.1
  have hp := two_zpow_pos (-51)
  have hT := top_eq
  have h4 := four_le_top
  cases d with
  | nan => exact absurd rfl hn
  | inf s =>
    cases s
    · rw [key_inf_false] at h2
      linarith
    · rw [key_inf_true] at h1
      linarith
  | fin s m e =>
    obtain ⟨K, hK⟩ := key_grid s m e hv (by linarith)
    have hdbl : key (mul (fin s m e) c2_00) = key (fin s m e) * 2 := by
      apply double_exact s m e hv
      by_contra hc
      push_neg at hc
      obtain ⟨_, _, h5, _⟩ := hv
      have he : e = 971 := by omega
      subst he
      have hm := mag_huge hc.2
      have hnn := mag_nonneg m 971
      rw [key_fin] at h2 h1
      cases s
      · simp only [sig, Bool.false_eq_true, if_false, one_mul] at h2
        linarith
      · simp only [sig, if_true] at h1
        linarith
    have hKq : (K : ℚ) = key (fin s m e) * 2 ^ 51 := by
      rw [hK, mul_assoc, pow51, mul_one]
    have hKlo : (0 : ℤ) ≤ K := by
      have : (0 : ℚ) ≤ (K : ℚ) := by
        rw [hKq]
        exact mul_nonneg (by linarith) (by positivity)
      exact_mod_cast this
    have hKhi : K < 25 * 2 ^ 48 := by
      have : (K : ℚ) < ((25 * 2 ^ 48 : ℤ) : ℚ) := by
        rw [hKq]
        push_cast
        have : key (fin s m e) * 2 ^ 51 < 25 / 8 * 2 ^ 51 :=
          mul_lt_mul_of_pos_right h2 (by positivity)
        linarith
      exact_mod_cast this
    have hw : |K + 3 * 2 ^ 49| < 2 ^ 53 := by
      rw [abs_lt]
      constructor <;> omega
    obtain ⟨b, hbv, hbn, hbk⟩ := representable (-50) (by norm_num) (by norm_num)
      (K + 3 * 2 ^ 49) hw
    have hSv : key (fin s m e) * 2 + 3 / 2 = ((K + 3 * 2 ^ 49 : ℤ) : ℚ) * 2 ^ (-50 : ℤ) := by
      rw [hK]
      push_cast
      norm_num [zpow_neg]
      ring
    have hS : key (add (mul (fin s m e) c2_00) c1_50) = key (fin s m e) * 2 + 3 / 2 := by
      rw [hdbl] at rS
      exact rS.exact hbv hbn (by rw [hbk, hSv])
    have hB := abs_le.1 (rB.err_small (by
      rw [abs_lt]
      constructor <;> linarith))
    rw [hS]
    obtain ⟨hB1, _⟩ := hB
    revert hB1 h1 hp
    generalize (2 : ℚ) ^ (-51 : ℤ) = p
    intro hp h1 hB1
    linarith

end Double

theorem key_aboveThree : key aboveThree = ((3 * 2 ^ 51 + 1 : ℤ) : ℚ) * 2 ^ (-51 : ℤ) := by
  simp only [aboveThree, key, sgn]
  push_cast
  norm_num

theorem key_aboveThree2 : key aboveThree2 = ((3 * 2 ^ 51 + 2 : ℤ) : ℚ) * 2 ^ (-51 : ℤ) := by
  simp only [aboveThree2, key, sgn]
  push_cast
  norm_num

theorem lt_true_ne_nan {a b : Double} (h : Double.lt a b = true) : a ≠ nan ∧ b ≠ nan := by
  cases a <;> cases b <;> simp [Double.lt] at h ⊢

/-- Above 3 miles, the two doubles next to 3 apart, a finite standard fare is
strictly below the base fare. -/
theorem standard_lt_base_above (d : Double) (hv : d.Valid)
    (h3 : Double.lt (ofNat 3) d = true) (hne1 : d ≠ aboveThree) (hne2 : d ≠ aboveThree2)
    (hf : (add (mul d c2_00) c1_50).isFinite = true) :
    Double.lt (add (mul d c2_00) c1_50) (mul d c2_50) = true := by
  obtain ⟨_, hn⟩ := lt_true_ne_nan h3
  obtain ⟨⟨vB, nB⟩, ⟨vS, nS⟩, _⟩ := fares_canonical d hn
  have hk := (lt_iff_key (by decide) hv (by decide) hn).1 h3
  rw [key_ofNat_3] at hk
  apply (lt_iff_key vS vB nS nB).2
  rcases le_or_lt (25 / 8) (key d) with hbig | hsmall
  · exact std_lt_base d hn hbig hf
  · apply std_lt_base_near d hv hn _ hsmall
    have hT := top_eq
    have h4 := four_le_top
    cases d with
    | nan => exact absurd rfl hn
    | inf s =>
      cases s
      · rw [key_inf_false] at hsmall
        linarith
      · rw [key_inf_true] at hk
        linarith
    | fin s m e =>
      obtain ⟨K, hK⟩ := key_grid s m e hv (by linarith)
      have hKq : (K : ℚ) = key (fin s m e) * 2 ^ 51 := by
        rw [hK, mul_assoc, pow51, mul_one]
      have hlo : 3 * 2 ^ 51 < K := by
        have : ((3 * 2 ^ 51 : ℤ) : ℚ) < (K : ℚ) := by
          rw [hKq]
          push_cast
          have : 3 * 2 ^ 51 < key (fin s m e) * 2 ^ 51 :=
            mul_lt_mul_of_pos_right hk (by positivity)
          linarith
        exact_mod_cast this
      have hz : ∀ a : Double, key a = key (fin s m e) → a.Valid → a.isFinite = true →
          fin s m e = a := by
        intro a ha hva hfa
        exact eq_of_key_eq hv hva rfl hfa (fun h0 => absurd h0 (by linarith))
          (fun h0 => absurd (ha ▸ h0) (by linarith)) ha.symm
      have hK1 : K ≠ 3 * 2 ^ 51 + 1 := by
        intro h
        apply hne1
        apply hz aboveThree _ (by decide) rfl
        rw [key_aboveThree, hK, h]
      have hK2 : K ≠ 3 * 2 ^ 51 + 2 := by
        intro h
        apply hne2
        apply hz aboveThree2 _ (by decide) rfl
        rw [key_aboveThree2, hK, h]
      have hK3 : 3 * 2 ^ 51 + 3 ≤ K := by omega
      have : ((3 * 2 ^ 51 + 3 : ℤ) : ℚ) ≤ (K : ℚ) := by exact_mod_cast hK3
      rw [hK]
      have hp := two_zpow_pos (-51)
      have := mul_le_mul_of_nonneg_right this hp.le
      push_cast at this
      have e : (3 * 2 ^ 51 + 3 : ℚ) * 2 ^ (-51 : ℤ) = 3 + 3 * 2 ^ (-51 : ℤ) := by
        have := pow51
        nlinarith
      linarith

/-- For a non-negative distance the premium fare is strictly above every
finite fare of the other two classes. -/
theorem premium_lt_finite (d : Double) (hv : d.Valid) (h0 : Double.le zero d = true) :
    ((add (mul d c2_00) c1_50).isFinite = true →
      Double.lt (add (mul d c2_00) c1_50) (mul (add (mul d c3_50) c5_00) c1_20) = true) ∧
    ((mul d c2_50).isFinite = true →
      Double.lt (mul d c2_50) (mul (add (mul d c3_50) c5_00) c1_20) = true) := by
  obtain ⟨hn, hk⟩ := le_zero_iff hv h0
  obtain ⟨⟨vB, nB⟩, ⟨vS, nS⟩, ⟨vP, nP⟩⟩ := fares_canonical d hn
  have hT := two_zpow_pos 1024
  have h5 := (premium_chain d hn hk).2.2.2
  have h3 := (premium_chain d hn hk).2.2.1
  have key_top : ¬ (mul (add (mul d c3_50) c5_00) c1_20).isFinite = true →
      2 ^ (1024 : ℤ) ≤ key (mul (add (mul d c3_50) c5_00) c1_20) := by
    intro hnf
    by_contra hc
    push_neg at hc
    exact hnf (finite_of_key nP hc (by linarith))
  constructor
  · intro hf
    apply (lt_iff_key vS vP nS nP).2
    by_cases hP : (mul (add (mul d c3_50) c5_00) c1_20).isFinite = true
    · exact (premium_gt d hn hk hP).1
    · have := key_top hP
      have := (abs_lt.1 (key_of_finite vS hf)).2
      linarith
  · intro hf
    apply (lt_iff_key vB vP nB nP).2
    by_cases hP : (mul (add (mul d c3_50) c5_00) c1_20).isFinite = true
    · exact (premium_gt d hn hk hP).2
    · have := key_top hP
      have := (abs_lt.1 (key_of_finite vB hf)).2
      linarith

/-- Whether the standard fare reaches the base fare is decided by the
three-mile mark, the two doubles next above 3 apart. -/
theorem standard_ge_iff (d : Double) (hv : d.Valid)
    (hf : (add (mul d c2_00) c1_50).isFinite = true)
    (hne1 : d ≠ aboveThree) (hne2 : d ≠ aboveThree2) :
    Double.le (mul d c2_50) (add (mul d c2_00) c1_50) = true ↔
      Double.le d (ofNat 3) = true := by
  have hn : d ≠ nan := by
    rintro rfl
    simp [mul, add, isFinite] at hf
  obtain ⟨⟨vB, nB⟩, ⟨vS, nS⟩, _⟩ := fares_canonical d hn
  constructor
  · intro hle
    by_contra h3
    have hk : ¬ key d ≤ key (ofNat 3) := fun h =>
      h3 ((le_iff_key hv (by decide) hn (by decide)).2 h)
    have hlt : Double.lt (ofNat 3) d = true :=
      (lt_iff_key (by decide) hv (by decide) hn).2 (not_le.1 hk)
    have h1 := (lt_iff_key vS vB nS nB).1 (standard_lt_base_above d hv hlt hne1 hne2 hf)
    have h2 := (le_iff_key vB vS nB nS).1 hle
    linarith
  · exact base_le_standard d hv

/-! ## Exactly summable fares -/

theorem key_eq_toRat {a : Double} (h : a.isFinite = true) : key a = toRat a := by
  cases a with
  | nan => simp [isFinite] at h
  | inf s => simp [isFinite] at h
  | fin s m e => rfl

/-- Totals of exactly summable fares: the loop returns the exact sum. -/
theorem total_exact (k : ℤ) (hk1 : -1074 ≤ k) (hk2 : k ≤ 970) (rides : List RidePtr)
    (hmul : ∀ r ∈ rides, r.fare.isFinite = true ∧ ∃ z : ℤ, toRat r.fare = (z : ℚ) * 2 ^ k)
    (hsum : (rides.map (fun r => |toRat r.fare|)).sum < 2 ^ (53 + k)) :
    (rides.foldl (fun total ride => total.add ride.fare) zero).Valid ∧
    (rides.foldl (fun total ride => total.add ride.fare) zero).isFinite = true ∧
    (key (rides.foldl (fun total ride => total.add ride.fare) zero) = 0 →
      rides.foldl (fun total ride => total.add ride.fare) zero = zero) ∧
    key (rides.foldl (fun total ride => total.add ride.fare) zero)
      = (rides.map (fun r => toRat r.fare)).sum := by
  rw [foldl_fares]
  have hall : ∀ x ∈ rides.map RidePtr.fare,
      x.isFinite = true ∧ ∃ z : ℤ, key x = (z : ℚ) * 2 ^ k := by
    intro x hx
    obtain ⟨r, hr, rfl⟩ := List.mem_map.1 hx
    obtain ⟨hf, z, hz⟩ := hmul r hr
    exact ⟨hf, z, by rw [key_eq_toRat hf, hz]⟩
  have hmap : ∀ l : List RidePtr, (∀ r ∈ l, r.fare.isFinite = true) →
      (l.map RidePtr.fare).map (fun x => |key x|) = l.map (fun r => |toRat r.fare|) ∧
      (l.map RidePtr.fare).map key = l.map (fun r => toRat r.fare) := by
    intro l hl
    constructor
    · rw [List.map_map]
      apply List.map_congr_left
      intro r hr
      simp [key_eq_toRat (hl r hr)]
    · rw [List.map_map]
      apply List.map_congr_left
      intro r hr
      simp [key_eq_toRat (hl r hr)]
  obtain ⟨e1, e2⟩ := hmap rides (fun r hr => (hmul r hr).1)
  have := foldl_add_exact k hk1 hk2 (rides.map RidePtr.fare) zero (by decide) rfl
    (fun _ => rfl) ⟨0, by simp [key_zero]⟩ hall (by rw [key_zero, e1]; simpa using hsum)
  rw [key_zero, zero_add, e2] at this
  exact this

theorem ride1_fare : ride1.fare = fin false (75 * 2 ^ 46) (-47) := by decide

theorem ride2_fare : ride2.fare = fin false (35 * 2 ^ 47) (-48) := by decide

/-! ## Claims -/

/-- C1: for every distance `d` the fare of a base ride is `d * 2.50`, of a
StandardRide `d * 2.00 + 1.50`, of a PremiumRide `(d * 3.50 + 5.00) * 1.20`,
whatever the id, pickup and dropoff; the literals denote 5/2, 2, 3/2, 7/2, 5
and the double nearest to 6/5; at `d = 10` the fares are 25.00, 21.50, 48.00. -/
theorem C1_fare_formulas :
    (∀ (id : Int) (pickup dropoff : String) (d : Double),
      (makeRide id pickup dropoff d).fare = d.mul c2_50 ∧
      (makeStandardRide id pickup dropoff d).fare = (d.mul c2_00).add c1_50 ∧
      (makePremiumRide id pickup dropoff d).fare = ((d.mul c3_50).add c5_00).mul c1_20) ∧
    (∀ (cls : RideClass) (id id2 : Int) (pickup pickup2 dropoff dropoff2 : String) (d : Double),
      (RidePtr.mk cls ⟨id, pickup, dropoff, d⟩).fare
        = (RidePtr.mk cls ⟨id2, pickup2, dropoff2, d⟩).fare) ∧
    (c2_50.toRat = 5 / 2 ∧ c2_00.toRat = 2 ∧ c1_50.toRat = 3 / 2 ∧ c3_50.toRat = 7 / 2 ∧
      c5_00.toRat = 5 ∧ |c1_20.toRat - 6 / 5| < 1 / 2 ^ 53) ∧
    (makeRide 999 "Point A" "Point B" (ofNat 10)).fare = ofNat 25 ∧
    (makeStandardRide 998 "Point A" "Point B" (ofNat 10)).fare = dyadic 43 (-1) ∧
    (makePremiumRide 997 "Point A" "Point B" (ofNat 10)).fare = ofNat 48 ∧
    fixed2 (ofNat 25) = "25.00" ∧ fixed2 (dyadic 43 (-1)) = "21.50" ∧
    fixed2 (ofNat 48) = "48.00" := by
  refine ⟨fun _ _ _ _ => ⟨rfl, rfl, rfl⟩, ?_, ?_, by decide, by decide, by decide,
    by decide, by decide, by decide⟩
  · intro cls id id2 pickup pickup2 dropoff dropoff2 d
    cases cls <;> rfl
  · simp only [toRat, c2_50, c2_00, c1_50, c3_50, c5_00, c1_20, sgn]
    refine ⟨?_, ?_, ?_, ?_, ?_, ?_⟩ <;> norm_num [abs_lt, zpow_neg]

/-- C2 as stated fails at d = 10: the StandardRide fare 21.50 is below the
base fare 25.00. -/
theorem C2_standard_below_base :
    Double.le zero (ofNat 10) = true ∧
    (makeRide 999 "Point A" "Point B" (ofNat 10)).fare = ofNat 25 ∧
    (makeStandardRide 998 "Point A" "Point B" (ofNat 10)).fare = dyadic 43 (-1) ∧
    Double.le (makeRide 999 "Point A" "Point B" (ofNat 10)).fare
      (makeStandardRide 998 "Point A" "Point B" (ofNat 10)).fare = false := by
  decide

/-- C2 (amended): for every non-negative distance d the PremiumRide fare is at
least the StandardRide fare and at least the base fare, and the StandardRide
fare is at least the base fare whenever d <= 3. -/
theorem C2_tier_order (id : Int) (pickup dropoff : String) (d : Double) (hv : d.Valid)
    (h0 : Double.le zero d = true) :
    Double.le (makeStandardRide id pickup dropoff d).fare
      (makePremiumRide id pickup dropoff d).fare = true ∧
    Double.le (makeRide id pickup dropoff d).fare
      (makePremiumRide id pickup dropoff d).fare = true ∧
    (Double.le d (ofNat 3) = true →
      Double.le (makeRide id pickup dropoff d).fare
        (makeStandardRide id pickup dropoff d).fare = true) :=
  ⟨(premium_le d hv h0).1, (premium_le d hv h0).2, base_le_standard d hv⟩

/-- Witness of C2 at d = 1: premium 10.20 >= standard 3.50 >= base 2.50. -/
theorem C2_tier_order_witness :
    Double.le (makeStandardRide 2 "A" "B" (ofNat 1)).fare
      (makePremiumRide 2 "A" "B" (ofNat 1)).fare = true ∧
    Double.le (makeRide 2 "A" "B" (ofNat 1)).fare
      (makeStandardRide 2 "A" "B" (ofNat 1)).fare = true :=
  ⟨(C2_tier_order 2 "A" "B" (ofNat 1) (by decide) (by decide)).1,
   (C2_tier_order 2 "A" "B" (ofNat 1) (by decide) (by decide)).2.2 (by decide)⟩

/-- C3: getTotalEarnings is the left-to-right sum (starting from 0.0) of the
virtual fares of the assigned rides, and after addRide(r) it is the previous
total plus r.fare(); Rider.getTotalSpending with requestRide obeys the same
laws; rides with fares 25.00 and 21.50 added to a fresh driver give 46.50. -/
theorem C3_total_is_ordered_sum :
    (∀ d : Driver, d.getTotalEarnings = (d.assignedRides.map RidePtr.fare).foldl add zero) ∧
    (∀ (d : Driver) (r : RidePtr),
      (d.addRide r).1.getTotalEarnings = d.getTotalEarnings.add r.fare) ∧
    (∀ r : Rider, r.getTotalSpending = (r.requestedRides.map RidePtr.fare).foldl add zero) ∧
    (∀ (r : Rider) (x : RidePtr),
      (r.requestRide x).1.getTotalSpending = r.getTotalSpending.add x.fare) ∧
    (makeRide 999 "Point A" "Point B" (ofNat 10)).fare = ofNat 25 ∧
    (makeStandardRide 998 "Point A" "Point B" (ofNat 10)).fare = dyadic 43 (-1) ∧
    ((Driver.create 1 "D" zero).addRides
        [makeRide 999 "Point A" "Point B" (ofNat 10),
         makeStandardRide 998 "Point A" "Point B" (ofNat 10)]).getTotalEarnings
      = dyadic 93 (-1) ∧
    fixed2 (dyadic 93 (-1)) = "46.50" := by
  refine ⟨fun d => foldl_fares _ _, ?_, fun r => foldl_fares _ _, ?_,
    by decide, by decide, by decide, by decide⟩
  · intro d r
    simp [Driver.getTotalEarnings, Driver.addRide, List.foldl_append]
  · intro r x
    simp [Rider.getTotalSpending, Rider.requestRide, List.foldl_append]

/-- C4 as stated fails: for a driver with 2147483647 assigned rides
getNumberOfRides() is 2147483647, and after one more addRide it is -2147483648,
not one larger, because the vector size is cast to int. -/
theorem C4_count_wraps :
    (Driver.mk 1 "D" zero (List.replicate 2147483647 ride1)).getNumberOfRides = 2147483647 ∧
    ((Driver.mk 1 "D" zero (List.replicate 2147483647 ride1)).addRide ride1).1.getNumberOfRides
      = -2147483648 ∧
    ((Driver.mk 1 "D" zero (List.replicate 2147483647 ride1)).addRide ride1).1.getNumberOfRides
      ≠ (Driver.mk 1 "D" zero (List.replicate 2147483647 ride1)).getNumberOfRides + 1 := by
  have h1 : (Driver.mk 1 "D" zero (List.replicate 2147483647 ride1)).getNumberOfRides
      = 2147483647 := by
    show toInt32 (List.replicate 2147483647 ride1).length = 2147483647
    rw [List.length_replicate]
    decide
  have h2 : ((Driver.mk 1 "D" zero (List.replicate 2147483647 ride1)).addRide
      ride1).1.getNumberOfRides = -2147483648 := by
    show toInt32 (List.replicate 2147483647 ride1 ++ [ride1]).length = -2147483648
    rw [List.length_append, List.length_replicate]
    decide
  refine ⟨h1, h2, ?_⟩
  rw [h1, h2]
  decide

/-- C4 (amended): addRide(r) keeps id, name and rating and makes the assigned
rides the previous sequence followed by r, one element longer, all earlier
rides at their positions and r last, even when r is already in the list;
getNumberOfRides() grows by exactly one whenever the new length is below 2^31.
Rider.requestRide behaves the same way on requestedRides. -/
theorem C4_addRide_appends :
    (∀ (d : Driver) (r : RidePtr),
      (d.addRide r).1.driverID = d.driverID ∧ (d.addRide r).1.name = d.name ∧
      (d.addRide r).1.rating = d.rating ∧
      (d.addRide r).1.assignedRides = d.assignedRides ++ [r] ∧
      (d.addRide r).1.assignedRides.length = d.assignedRides.length + 1 ∧
      (∀ i, i < d.assignedRides.length →
        (d.addRide r).1.assignedRides.get? i = d.assignedRides.get? i) ∧
      (d.addRide r).1.assignedRides.get? d.assignedRides.length = some r ∧
      (d.assignedRides.length + 1 < 2 ^ 31 →
        (d.addRide r).1.getNumberOfRides = d.getNumberOfRides + 1)) ∧
    (∀ (x : Rider) (r : RidePtr),
      (x.requestRide r).1.riderID = x.riderID ∧ (x.requestRide r).1.name = x.name ∧
      (x.requestRide r).1.requestedRides = x.requestedRides ++ [r] ∧
      (x.requestRide r).1.requestedRides.length = x.requestedRides.length + 1 ∧
      (∀ i, i < x.requestedRides.length →
        (x.requestRide r).1.requestedRides.get? i = x.requestedRides.get? i) ∧
      (x.requestRide r).1.requestedRides.get? x.requestedRides.length = some r ∧
      (x.requestedRides.length + 1 < 2 ^ 31 →
        (x.requestRide r).1.getNumberOfRequestedRides = x.getNumberOfRequestedRides + 1)) := by
  constructor
  · intro d r
    refine ⟨rfl, rfl, rfl, rfl, by simp [Driver.addRide], ?_, ?_, ?_⟩
    · intro i hi
      simp [Driver.addRide, List.getElem?_append_left hi]
    · simp [Driver.addRide]
    · intro hlen
      simp only [Driver.addRide, Driver.getNumberOfRides, List.length_append,
        List.length_singleton, toInt32]
      omega
  · intro x r
    refine ⟨rfl, rfl, rfl, by simp [Rider.requestRide], ?_, ?_, ?_⟩
    · intro i hi
      simp [Rider.requestRide, List.getElem?_append_left hi]
    · simp [Rider.requestRide]
    · intro hlen
      simp only [Rider.requestRide, Rider.getNumberOfRequestedRides, List.length_append,
        List.length_singleton, toInt32]
      omega

/-- Witness of C4 at driver `alice` (two rides) adding `ride1` a second time,
and at a fresh rider requesting `ride1`. -/
theorem C4_addRide_appends_witness :
    (alice.addRide ride1).1.assignedRides = [ride1, ride2, ride1] ∧
    (alice.addRide ride1).1.assignedRides.get? 0 = alice.assignedRides.get? 0 ∧
    (alice.addRide ride1).1.getNumberOfRides = alice.getNumberOfRides + 1 ∧
    (((Rider.create 301 "Emma Wilson").requestRides [ride2]).requestRide
        ride1).1.requestedRides.get? 0
      = ((Rider.create 301 "Emma Wilson").requestRides [ride2]).requestedRides.get? 0 ∧
    (((Rider.create 301 "Emma Wilson").requestRides [ride2]).requestRide
        ride1).1.getNumberOfRequestedRides
      = ((Rider.create 301 "Emma Wilson").requestRides [ride2]).getNumberOfRequestedRides + 1 :=
  ⟨(C4_addRide_appends.1 alice ride1).2.2.2.1,
   (C4_addRide_appends.1 alice ride1).2.2.2.2.2.1 0 (by decide),
   (C4_addRide_appends.1 alice ride1).2.2.2.2.2.2.2 (by decide),
   (C4_addRide_appends.2 ((Rider.create 301 "Emma Wilson").requestRides [ride2])
      ride1).2.2.2.2.1 0 (by decide),
   (C4_addRide_appends.2 ((Rider.create 301 "Emma Wilson").requestRides [ride2])
      ride1).2.2.2.2.2.2 (by decide)⟩

/-- C5 as stated fails: three StandardRides of 0.1, 0.2 and 0.3 miles give the
total 5.699999999999999 when requested in that order and 5.7 when requested
in the reverse order. -/
theorem C5_order_changes_total :
    List.Perm [shortA, shortB, shortC] [shortC, shortB, shortA] ∧
    ((Rider.create 1 "Emma").requestRides [shortA, shortB, shortC]).getTotalSpending
      = fin false 6417629469002956 (-50) ∧
    ((Rider.create 2 "Emma").requestRides [shortC, shortB, shortA]).getTotalSpending
      = fin false 6417629469002957 (-50) ∧
    Double.eq
      ((Rider.create 1 "Emma").requestRides [shortA, shortB, shortC]).getTotalSpending
      ((Rider.create 2 "Emma").requestRides [shortC, shortB, shortA]).getTotalSpending
      = false ∧
    Double.eq
      ((Driver.create 1 "Bob" zero).addRides [shortA, shortB, shortC]).getTotalEarnings
      ((Driver.create 1 "Bob" zero).addRides [shortC, shortB, shortA]).getTotalEarnings
      = false :=
  ⟨show List.Perm [shortC, shortB, shortA].reverse _ from List.reverse_perm _, by decide, by decide, by decide,
    by decide⟩

/-- C5 (amended): when every fare is finite and a whole multiple of 2^k
(-1074 <= k <= 970) and the absolute fares sum to less than 2^(53+k), a Rider
who requested the rides in the original order and a Rider who requested them
in a permuted order report the same total spending, the exact sum of the
fares; likewise Driver.getTotalEarnings. -/
theorem C5_order_independent_when_exact (k : ℤ) (hk1 : -1074 ≤ k) (hk2 : k ≤ 970)
    (rides rides2 : List RidePtr) (hp : rides.Perm rides2)
    (hmul : ∀ r ∈ rides, r.fare.isFinite = true ∧ ∃ z : ℤ, toRat r.fare = (z : ℚ) * 2 ^ k)
    (hsum : (rides.map (fun r => |toRat r.fare|)).sum < 2 ^ (53 + k))
    (id id2 : Int) (name name2 : String) (rating rating2 : Double) :
    ((Rider.create id name).requestRides rides).getTotalSpending
      = ((Rider.create id2 name2).requestRides rides2).getTotalSpending ∧
    ((Driver.create id name rating).addRides rides).getTotalEarnings
      = ((Driver.create id2 name2 rating2).addRides rides2).getTotalEarnings ∧
    toRat ((Rider.create id name).requestRides rides).getTotalSpending
      = (rides.map (fun r => toRat r.fare)).sum := by
  have hmul2 : ∀ r ∈ rides2,
      r.fare.isFinite = true ∧ ∃ z : ℤ, toRat r.fare = (z : ℚ) * 2 ^ k :=
    fun r hr => hmul r (hp.mem_iff.2 hr)
  have hsum2 : (rides2.map (fun r => |toRat r.fare|)).sum < 2 ^ (53 + k) := by
    rw [← (hp.map (fun r => |toRat r.fare|)).sum_eq]
    exact hsum
  obtain ⟨v1, f1, z1, k1⟩ := total_exact k hk1 hk2 rides hmul hsum
  obtain ⟨v2, f2, z2, k2⟩ := total_exact k hk1 hk2 rides2 hmul2 hsum2
  have hk : key (rides.foldl (fun total ride => total.add ride.fare) zero)
      = key (rides2.foldl (fun total ride => total.add ride.fare) zero) := by
    rw [k1, k2, (hp.map (fun r => toRat r.fare)).sum_eq]
  have heq := eq_of_key_eq v1 v2 f1 f2 z1 z2 hk
  have r1 : ∀ (i : Int) (n : String) (l : List RidePtr),
      ((Rider.create i n).requestRides l).getTotalSpending
        = l.foldl (fun total ride => total.add ride.fare) zero := by
    intro i n l
    have := Rider.requestRides_requestedRides (Rider.create i n) l
    simp only [Rider.create, List.nil_append] at this
    simp only [Rider.getTotalSpending, Rider.create, this]
  have d1 : ∀ (i : Int) (n : String) (rt : Double) (l : List RidePtr),
      ((Driver.create i n rt).addRides l).getTotalEarnings
        = l.foldl (fun total ride => total.add ride.fare) zero := by
    intro i n rt l
    have := Driver.addRides_assignedRides (Driver.create i n rt) l
    simp only [Driver.create, List.nil_append] at this
    simp only [Driver.getTotalEarnings, Driver.create, this]
  refine ⟨by rw [r1, r1, heq], by rw [d1, d1, heq], ?_⟩
  rw [r1, ← key_eq_toRat f1, k1]

/-- Witness of C5: rides 101 and 102 of the scenario (fares 37.50 and 17.50,
multiples of 1/2) in both orders. -/
theorem C5_order_independent_when_exact_witness :
    ((Rider.create 301 "Emma Wilson").requestRides [ride1, ride2]).getTotalSpending
      = ((Rider.create 302 "David Lee").requestRides [ride2, ride1]).getTotalSpending :=
  (C5_order_independent_when_exact (-1) (by decide) (by decide) [ride1, ride2] [ride2, ride1]
    (List.Perm.swap ride2 ride1 [])
    (by
      intro r hr
      simp only [List.mem_cons, List.mem_singleton, List.not_mem_nil, or_false] at hr
      rcases hr with rfl | rfl
      · exact ⟨by decide, 75, by rw [ride1_fare]; norm_num [toRat, sgn, zpow_neg]⟩
      · exact ⟨by decide, 35, by rw [ride2_fare]; norm_num [toRat, sgn, zpow_neg]⟩)
    (by
      simp only [List.map_cons, List.map_nil, List.sum_cons, List.sum_nil]
      rw [ride1_fare, ride2_fare]
      norm_num [toRat, sgn, zpow_neg, abs_of_pos])
    301 302 "Emma Wilson" "David Lee" zero zero).1

/-- C6: a freshly constructed Driver has 0 rides, total earnings 0.0 and a
listing made of the header and the line "  No rides assigned"; a freshly
constructed Rider has 0 requested rides, total spending 0.0 and a listing made
of the header and the line "  No rides requested". -/
theorem C6_fresh_is_empty :
    (∀ (id : Int) (name : String) (rating : Double),
      (Driver.create id name rating).getNumberOfRides = 0 ∧
      (Driver.create id name rating).getTotalEarnings = zero ∧
      (Driver.create id name rating).displayAssignedRides
        = ["Rides for driver " ++ name ++ ":", "  No rides assigned"]) ∧
    (∀ (id : Int) (name : String),
      (Rider.create id name).getNumberOfRequestedRides = 0 ∧
      (Rider.create id name).getTotalSpending = zero ∧
      (Rider.create id name).viewRides
        = ["Ride history for " ++ name ++ ":", "  No rides requested"]) ∧
    fixed2 zero = "0.00" := by
  refine ⟨fun id name rating => ⟨show toInt32 0 = 0 by decide, rfl, rfl⟩,
    fun id name => ⟨show toInt32 0 = 0 by decide, rfl, rfl⟩,
    by decide⟩

/-- C7: in the demonstration scenario ride 101 (base, 15.0 miles) costs 37.50,
ride 102 (Standard, 8.0 miles) 17.50, ride 104 (Premium, 10.0 miles) 48.00, and
the driver given rides 101 and 102 in that order has total earnings 55.00 and
2 rides. -/
theorem C7_scenario :
    ride1.fare = dyadic 75 (-1) ∧ fixed2 ride1.fare = "37.50" ∧
    ride2.fare = dyadic 35 (-1) ∧ fixed2 ride2.fare = "17.50" ∧
    ride4.fare = ofNat 48 ∧ fixed2 ride4.fare = "48.00" ∧
    alice.assignedRides = [ride1, ride2] ∧
    alice.getTotalEarnings = ofNat 55 ∧ fixed2 alice.getTotalEarnings = "55.00" ∧
    alice.getNumberOfRides = 2 := by
  refine ⟨by decide, by decide, by decide, by decide, by decide, by decide, by decide,
    by decide, by decide, by decide⟩

/-- C8: after a non-empty sequence of rides is added to a fresh Driver, the
listing is the header line followed by exactly one line per ride, in insertion
order, the i-th being "  - " and the rideDetails() of the i-th ride dispatched
on its dynamic class, so the number of ride lines is the number of rides
added (and equals getNumberOfRides() while that fits an int); the same holds
for Rider.viewRides. -/
theorem C8_listing_in_insertion_order (id : Int) (name : String) (rating : Double)
    (rides : List RidePtr) (hne : rides ≠ []) :
    ((Driver.create id name rating).addRides rides).displayAssignedRides
      = ("Rides for driver " ++ name ++ ":")
          :: rides.map (fun ride => "  - " ++ ride.rideDetails) ∧
    ((Driver.create id name rating).addRides rides).displayAssignedRides.tail.length
      = rides.length ∧
    (∀ i (hi : i < rides.length),
      ((Driver.create id name rating).addRides rides).displayAssignedRides.get? (i + 1)
        = some ("  - " ++ (rides.get ⟨i, hi⟩).rideDetails)) ∧
    (rides.length < 2 ^ 31 →
      (((Driver.create id name rating).addRides rides).displayAssignedRides.tail.length : Int)
        = ((Driver.create id name rating).addRides rides).getNumberOfRides) ∧
    ((Rider.create id name).requestRides rides).viewRides
      = ("Ride history for " ++ name ++ ":")
          :: rides.map (fun ride => "  - " ++ ride.rideDetails) ∧
    ((Rider.create id name).requestRides rides).viewRides.tail.length = rides.length ∧
    (∀ (cls : RideClass) (r : Ride),
      (RidePtr.mk cls r).rideDetails =
        match cls with
        | .base => Ride.rideDetails ⟨.base, r⟩
        | .standard => StandardRide.rideDetails r
        | .premium => PremiumRide.rideDetails r) := by
  have hd : ((Driver.create id name rating).addRides rides).displayAssignedRides
      = ("Rides for driver " ++ name ++ ":")
          :: rides.map (fun ride => "  - " ++ ride.rideDetails) := by
    have h1 := Driver.addRides_assignedRides (Driver.create id name rating) rides
    have h2 := Driver.addRides_name (Driver.create id name rating) rides
    simp only [Driver.create, List.nil_append] at h1 h2
    simp only [Driver.displayAssignedRides, Driver.create, h1, h2, foldl_lines]
    simp [hne]
  have hr : ((Rider.create id name).requestRides rides).viewRides
      = ("Ride history for " ++ name ++ ":")
          :: rides.map (fun ride => "  - " ++ ride.rideDetails) := by
    have h1 := Rider.requestRides_requestedRides (Rider.create id name) rides
    have h2 := Rider.requestRides_name (Rider.create id name) rides
    simp only [Rider.create, List.nil_append] at h1 h2
    simp only [Rider.viewRides, Rider.create, h1, h2, foldl_lines]
    simp [hne]
  refine ⟨hd, by simp [hd], ?_, ?_, hr, by simp [hr], ?_⟩
  · intro i hi
    rw [hd]
    simp [List.getElem?_eq_getElem hi]
  · intro hlen
    have h1 := Driver.addRides_assignedRides (Driver.create id name rating) rides
    simp only [Driver.create, List.nil_append] at h1
    rw [hd]
    simp only [Driver.getNumberOfRides, Driver.create, h1, List.tail_cons, List.length_map,
      toInt32]
    omega
  · intro cls r
    cases cls <;> rfl

/-- Witness of C8: the listing of driver alice's two rides of the scenario. -/
theorem C8_listing_in_insertion_order_witness :
    ((Driver.create 501 "Alice Johnson" zero).addRides [ride1, ride2]).displayAssignedRides
      = ["Rides for driver Alice Johnson:",
         "  - Ride ID: 101, From: Downtown, To: Airport, Distance: 15.00 miles, Fare: $37.50",
         "  - [STANDARD] Ride ID: 102, From: Mall, To: University, Distance: 8.00 miles, Fare: $17.50"] ∧
    ((Driver.create 501 "Alice Johnson" zero).addRides [ride1, ride2]).displayAssignedRides.get? 2
      = some ("  - " ++ ride2.rideDetails) ∧
    (((Driver.create 501 "Alice Johnson" zero).addRides
        [ride1, ride2]).displayAssignedRides.tail.length : Int)
      = ((Driver.create 501 "Alice Johnson" zero).addRides [ride1, ride2]).getNumberOfRides :=
  ⟨(C8_listing_in_insertion_order 501 "Alice Johnson" zero [ride1, ride2] (by decide)).1.trans
    (by decide),
   (C8_listing_in_insertion_order 501 "Alice Johnson" zero [ride1, ride2] (by decide)).2.2.1 1
    (by decide),
   (C8_listing_in_insertion_order 501 "Alice Johnson" zero [ride1, ride2]
    (by decide)).2.2.2.1 (by decide)⟩

/-- C9: rideDetails() is the variant tag, the common body
"Ride ID: <id>, From: <pickup>, To: <dropoff>, Distance: <distance> miles,
Fare: $<fare>" with distance and the variant's own fare() in fixed two-decimal
format, and the variant note; the tag is empty, "[STANDARD] " or "[PREMIUM] ",
the note is " (includes luxury surcharge)" for a PremiumRide and empty
otherwise. -/
theorem C9_rideDetails_layout :
    (∀ p : RidePtr, p.rideDetails = tagOf p.cls ++ detailsBody p ++ noteOf p.cls) ∧
    (∀ p : RidePtr, detailsBody p =
      "Ride ID: " ++ toString p.obj.rideID ++ ", From: " ++ p.obj.pickupLocation
        ++ ", To: " ++ p.obj.dropoffLocation ++ ", Distance: " ++ fixed2 p.obj.distance
        ++ " miles" ++ ", Fare: $" ++ fixed2 p.fare) ∧
    (tagOf .base = "" ∧ tagOf .standard = "[STANDARD] " ∧ tagOf .premium = "[PREMIUM] ") ∧
    (noteOf .base = "" ∧ noteOf .standard = "" ∧
      noteOf .premium = " (includes luxury surcharge)") ∧
    (∀ (s : Bool) (m : Nat) (e : Int), ∃ (w : String) (a b : Char),
      fixed2 (fin s m e) = w ++ "." ++ String.mk [a, b] ∧ a.isDigit = true ∧ b.isDigit = true) ∧
    ride1.rideDetails
      = "Ride ID: 101, From: Downtown, To: Airport, Distance: 15.00 miles, Fare: $37.50" ∧
    ride2.rideDetails
      = "[STANDARD] Ride ID: 102, From: Mall, To: University, Distance: 8.00 miles, Fare: $17.50" ∧
    ride4.rideDetails
      = "[PREMIUM] Ride ID: 104, From: Luxury Hotel, To: Business District, Distance: 10.00 miles, Fare: $48.00 (includes luxury surcharge)" := by
  refine ⟨?_, fun p => rfl, ⟨rfl, rfl, rfl⟩, ⟨rfl, rfl, rfl⟩, ?_, by decide, by decide,
    by decide⟩
  · rintro ⟨cls, r⟩
    cases cls
    · simp [RidePtr.rideDetails, Ride.rideDetails, tagOf, noteOf, detailsBody]
    · simp only [RidePtr.rideDetails, StandardRide.rideDetails, tagOf, noteOf, detailsBody,
        RidePtr.fare, String.append_assoc, String.append_empty]
      rfl
    · simp only [RidePtr.rideDetails, PremiumRide.rideDetails, tagOf, noteOf, detailsBody,
        RidePtr.fare, String.append_assoc]
      rfl
  · intro s m e
    refine ⟨_, _, _, rfl, ?_, ?_⟩
    · have h : ∀ k, k < 10 → (Nat.digitChar k).isDigit = true := by decide
      exact h _ (Nat.mod_lt _ (by decide))
    · have h : ∀ k, k < 10 → (Nat.digitChar k).isDigit = true := by decide
      exact h _ (Nat.mod_lt _ (by decide))

/-- C10 as stated fails twice: at d = 3 + 2^-51 > 3 the StandardRide fare is
not strictly cheaper, both fares round to 7.5 + 2^-50; and at d = 2^1023 >= 0
the PremiumRide fare is not strictly greater than the base fare, both are
+infinity. -/
theorem C10_rounding_ties :
    aboveThree.Valid ∧ Double.lt (ofNat 3) aboveThree = true ∧
    (makeStandardRide 1 "A" "B" aboveThree).fare = fin false (15 * 2 ^ 49 + 1) (-50) ∧
    (makeRide 1 "A" "B" aboveThree).fare = fin false (15 * 2 ^ 49 + 1) (-50) ∧
    Double.lt (makeStandardRide 1 "A" "B" aboveThree).fare
      (makeRide 1 "A" "B" aboveThree).fare = false ∧
    Double.le (makeRide 1 "A" "B" aboveThree).fare
      (makeStandardRide 1 "A" "B" aboveThree).fare = true ∧
    (dyadic 1 1023).Valid ∧ Double.le zero (dyadic 1 1023) = true ∧
    (makeRide 1 "A" "B" (dyadic 1 1023)).fare = inf false ∧
    (makePremiumRide 1 "A" "B" (dyadic 1 1023)).fare = inf false ∧
    Double.lt (makeRide 1 "A" "B" (dyadic 1 1023)).fare
      (makePremiumRide 1 "A" "B" (dyadic 1 1023)).fare = false := by
  decide

/-- C10 (amended): for rides built with the same distance d, the StandardRide
fare is at least the base fare whenever d <= 3 and at most the base fare
whenever d >= 3 (both are 7.50 at d = 3); it is strictly cheaper for every
d > 3 whose Standard fare is finite, except the two doubles next above 3,
3 + 2^-51 and 3 + 2^-50, where both fares round to the same double; so, these
two distances apart, a finite Standard fare is at least the base fare if and
only if d <= 3.  The PremiumRide fare is at least both other fares for every
d >= 0 and strictly greater than each of them that is finite (in particular
than both whenever the Premium fare itself is finite). -/
theorem C10_fare_crossover (id : Int) (pickup dropoff : String) (d : Double) (hv : d.Valid) :
    (Double.le d (ofNat 3) = true →
      Double.le (makeRide id pickup dropoff d).fare
        (makeStandardRide id pickup dropoff d).fare = true) ∧
    (Double.le (ofNat 3) d = true →
      Double.le (makeStandardRide id pickup dropoff d).fare
        (makeRide id pickup dropoff d).fare = true) ∧
    (Double.lt (ofNat 3) d = true → d ≠ aboveThree → d ≠ aboveThree2 →
      (makeStandardRide id pickup dropoff d).fare.isFinite = true →
      Double.lt (makeStandardRide id pickup dropoff d).fare
        (makeRide id pickup dropoff d).fare = true) ∧
    ((makeStandardRide id pickup dropoff d).fare.isFinite = true →
      d ≠ aboveThree → d ≠ aboveThree2 →
      (Double.le (makeRide id pickup dropoff d).fare
          (makeStandardRide id pickup dropoff d).fare = true ↔
        Double.le d (ofNat 3) = true)) ∧
    (Double.le zero d = true →
      Double.le (makeStandardRide id pickup dropoff d).fare
        (makePremiumRide id pickup dropoff d).fare = true ∧
      Double.le (makeRide id pickup dropoff d).fare
        (makePremiumRide id pickup dropoff d).fare = true) ∧
    (Double.le zero d = true → (makePremiumRide id pickup dropoff d).fare.isFinite = true →
      Double.lt (makeStandardRide id pickup dropoff d).fare
        (makePremiumRide id pickup dropoff d).fare = true ∧
      Double.lt (makeRide id pickup dropoff d).fare
        (makePremiumRide id pickup dropoff d).fare = true) ∧
    (Double.le zero d = true →
      ((makeStandardRide id pickup dropoff d).fare.isFinite = true →
        Double.lt (makeStandardRide id pickup dropoff d).fare
          (makePremiumRide id pickup dropoff d).fare = true) ∧
      ((makeRide id pickup dropoff d).fare.isFinite = true →
        Double.lt (makeRide id pickup dropoff d).fare
          (makePremiumRide id pickup dropoff d).fare = true)) ∧
    ((makeRide id pickup dropoff (ofNat 3)).fare = dyadic 15 (-1) ∧
      (makeStandardRide id pickup dropoff (ofNat 3)).fare = dyadic 15 (-1) ∧
      fixed2 (dyadic 15 (-1)) = "7.50") ∧
    ((makeStandardRide id pickup dropoff aboveThree).fare
        = (makeRide id pickup dropoff aboveThree).fare ∧
      (makeStandardRide id pickup dropoff aboveThree2).fare
        = (makeRide id pickup dropoff aboveThree2).fare) :=
  ⟨base_le_standard d hv, standard_le_base d hv, standard_lt_base_above d hv,
   standard_ge_iff d hv, premium_le d hv, premium_lt d hv, premium_lt_finite d hv,
   ⟨show mul (ofNat 3) c2_50 = dyadic 15 (-1) by decide,
    show add (mul (ofNat 3) c2_00) c1_50 = dyadic 15 (-1) by decide, by decide⟩,
   ⟨show add (mul aboveThree c2_00) c1_50 = mul aboveThree c2_50 by decide,
    show add (mul aboveThree2 c2_00) c1_50 = mul aboveThree2 c2_50 by decide⟩⟩

/-- Witness of C10 at d = 1 (base 2.50 <= Standard 3.50), at d = 3 + 3 * 2^-51
(Standard strictly below base), at d = 10 (Standard 21.50 < base 25.00 <
Premium 48.00) and at d = 2^1022 (finite base fare below an infinite Premium
fare). -/
theorem C10_fare_crossover_witness :
    Double.le (makeRide 7 "A" "B" (ofNat 1)).fare
      (makeStandardRide 7 "A" "B" (ofNat 1)).fare = true ∧
    Double.le (makeStandardRide 7 "A" "B" (ofNat 10)).fare
      (makeRide 7 "A" "B" (ofNat 10)).fare = true ∧
    Double.lt (makeStandardRide 7 "A" "B" (fin false (3 * 2 ^ 51 + 3) (-51))).fare
      (makeRide 7 "A" "B" (fin false (3 * 2 ^ 51 + 3) (-51))).fare = true ∧
    (Double.le (makeRide 7 "A" "B" (ofNat 10)).fare
        (makeStandardRide 7 "A" "B" (ofNat 10)).fare = true ↔
      Double.le (ofNat 10) (ofNat 3) = true) ∧
    Double.le (makeRide 7 "A" "B" (ofNat 10)).fare
      (makePremiumRide 7 "A" "B" (ofNat 10)).fare = true ∧
    Double.lt (makeRide 7 "A" "B" (ofNat 10)).fare
      (makePremiumRide 7 "A" "B" (ofNat 10)).fare = true ∧
    Double.lt (makeStandardRide 7 "A" "B" (dyadic 1 1022)).fare
      (makePremiumRide 7 "A" "B" (dyadic 1 1022)).fare = true ∧
    Double.lt (makeRide 7 "A" "B" (dyadic 1 1022)).fare
      (makePremiumRide 7 "A" "B" (dyadic 1 1022)).fare = true :=
  ⟨(C10_fare_crossover 7 "A" "B" (ofNat 1) (by decide)).1 (by decide),
   (C10_fare_crossover 7 "A" "B" (ofNat 10) (by decide)).2.1 (by decide),
   (C10_fare_crossover 7 "A" "B" (fin false (3 * 2 ^ 51 + 3) (-51)) (by decide)).2.2.1
    (by decide) (by decide) (by decide) (by decide),
   (C10_fare_crossover 7 "A" "B" (ofNat 10) (by decide)).2.2.2.1
    (by decide) (by decide) (by decide),
   ((C10_fare_crossover 7 "A" "B" (ofNat 10) (by decide)).2.2.2.2.1 (by decide)).2,
   ((C10_fare_crossover 7 "A" "B" (ofNat 10) (by decide)).2.2.2.2.2.1 (by decide)
    (by decide)).2,
   ((C10_fare_crossover 7 "A" "B" (dyadic 1 1022) (by decide)).2.2.2.2.2.2.1
    (by decide)).1 (by decide),
   ((C10_fare_crossover 7 "A" "B" (dyadic 1 1022) (by decide)).2.2.2.2.2.2.1
    (by decide)).2 (by decide)⟩

end RideSharing
